import Mathlib

/-!
Verification of the reviewr diff-review-ordering engine.

This file gives a shallow embedding, in Lean 4, of the core of the
reviewr repository (a TypeScript program that reorders a code diff for
review): the cycle-tolerant topological sorter, the diff chunk merger,
the schema-validated tool registry, the conversational tool-execution
loop, the dependency-graph builder and the per-tag iterative reorderer.
Each definition is translated from the TypeScript source; theorems then
settle the specification's claims about those functions.
-/

namespace Reviewr

/-! ## Data model

`DiffChunk` mirrors the `DiffChunk` interface of `src/tools/diffTool.ts`:
`{ id: string; content: string; filename: string; patch?: string }`. -/

structure DiffChunk where
  id : String
  content : String
  filename : String
  patch : Option String
deriving DecidableEq, Repr

/-- `DependencyGraph` mirrors `{ nodes: DiffChunk[]; dependencies: Record<string, string[]> }`
from `src/index.ts`.  The JS `Record` (object) is modelled as an association
list with the object's key-lookup semantics (`recLookup`). -/
structure DependencyGraph where
  nodes : List DiffChunk
  dependencies : List (String × List String)
deriving DecidableEq, Repr

/-- Key lookup in a JS object modelled as an association list
(first matching key wins; JS objects have unique keys). -/
def recLookup {α : Type} : List (String × α) → String → Option α
  | [], _ => none
  | (k, v) :: rest, x => if x = k then some v else recLookup rest x

/-- `obj[key] = value` on a JS object: replace the binding if the key is
present, otherwise append it. -/
def recSet {α : Type} : List (String × α) → String → α → List (String × α)
  | [], x, v => [(x, v)]
  | (k, w) :: rest, x, v =>
    if x = k then (k, v) :: rest else (k, w) :: recSet rest x v

/-- `graph.dependencies[nodeId] || []` from `topologicalSort`. -/
def depsOf (g : DependencyGraph) (nodeId : String) : List String :=
  (recLookup g.dependencies nodeId).getD []

/-- The ids of the graph's nodes, in extraction order
(`graph.nodes.map(node => node.id)`). -/
def nodeIds (g : DependencyGraph) : List String :=
  g.nodes.map (fun n => n.id)

/-- The in-degree table of `topologicalSort`: `indegree[x]` counts how many
times `x` occurs in the dependency lists of the graph's nodes.  (The source
initialises every node id to 0 and then increments per occurrence; the final
value read back for a node id is exactly this count.) -/
def indegree (g : DependencyGraph) (x : String) : Nat :=
  ((nodeIds g).flatMap (fun nodeId => depsOf g nodeId)).count x

/-- The `nodeMap` of `topologicalSort`: `Map.set` per node, so the last node
with a given id wins; reading is `nodeMap.get(nodeId)`. -/
def nodeMapFind (nodes : List DiffChunk) (nodeId : String) : Option DiffChunk :=
  nodes.reverse.find? (fun n => n.id == nodeId)

/-- The mutable state of `topologicalSort`'s DFS: the `visited` set, the
`temp` (in-progress) set and the output `order`. -/
structure SortState where
  visited : Finset String
  temp : Finset String
  order : List DiffChunk

mutual

/-- One `visit(nodeId)` call of `topologicalSort`, with an explicit fuel
argument standing for the (in the source, implicit) recursion depth:
a back-edge into a `temp` node is skipped (cycle break), an already
`visited` node is skipped, otherwise the node is marked in-progress, its
dependencies are visited first, and then the node is marked visited and
appended to the order.  `visitList` is the `for (const depId of deps)` loop. -/
def visitCore (g : DependencyGraph) : Nat → String → SortState → SortState
  | 0, _, s => s
  | fuel + 1, nodeId, s =>
    if nodeId ∈ s.temp then s
    else if nodeId ∈ s.visited then s
    else
      let s1 : SortState := { s with temp := insert nodeId s.temp }
      let s2 := visitList g fuel (depsOf g nodeId) s1
      let s3 : SortState :=
        { s2 with temp := s2.temp.erase nodeId, visited := insert nodeId s2.visited }
      match nodeMapFind g.nodes nodeId with
      | some node => { s3 with order := s3.order ++ [node] }
      | none => s3
termination_by fuel _ _ => (fuel, 0)

/-- The dependency loop inside `visit`. -/
def visitList (g : DependencyGraph) : Nat → List String → SortState → SortState
  | _, [], s => s
  | fuel, depId :: rest, s => visitList g fuel rest (visitCore g fuel depId s)
termination_by fuel ds _ => (fuel, ds.length + 1)

end

/-- All ids the DFS can ever touch: node ids plus every id occurring in a
recorded dependency list.  Its length bounds the recursion depth. -/
def univIds (g : DependencyGraph) : List String :=
  nodeIds g ++ g.dependencies.flatMap (fun p => p.2)

/-- Fuel that provably never runs out (the `temp` set grows at each nested
`visit`, and stays inside `univIds`). -/
def sortFuel (g : DependencyGraph) : Nat :=
  (univIds g).length + 1

/-- `topologicalSort` from `src/index.ts` (lines 585-655): candidate ids are
sorted ascending by in-degree (JS `Array.prototype.sort` is stable), then each
not-yet-visited id is visited by the cycle-tolerant DFS. -/
def topologicalSort (g : DependencyGraph) : List DiffChunk :=
  let rootsFirst := (nodeIds g).mergeSort (fun a b => indegree g a ≤ indegree g b)
  let final := rootsFirst.foldl
    (fun s nodeId => if nodeId ∈ s.visited then s else visitCore g (sortFuel g) nodeId s)
    ⟨∅, ∅, []⟩
  final.order

/-! ## Invariants of the DFS -/

/-- The ids of the output accumulated so far. -/
def orderIds (s : SortState) : List String :=
  s.order.map (fun c => c.id)

/-- The basic state invariant of the DFS: output ids are distinct, output
elements are graph nodes, output ids are visited, and every visited id of an
actual node has been emitted. -/
def InvA (g : DependencyGraph) (s : SortState) : Prop :=
  (orderIds s).Nodup ∧
  (∀ c ∈ s.order, c ∈ g.nodes) ∧
  (∀ c ∈ s.order, c.id ∈ s.visited) ∧
  (∀ x ∈ s.visited, x ∈ nodeIds g → ∃ c ∈ s.order, c.id = x)

theorem nodeMapFind_mem {nodes : List DiffChunk} {x : String} {c : DiffChunk}
    (h : nodeMapFind nodes x = some c) : c ∈ nodes := by
  have := List.mem_of_find?_eq_some h
  simpa using this

theorem nodeMapFind_id {nodes : List DiffChunk} {x : String} {c : DiffChunk}
    (h : nodeMapFind nodes x = some c) : c.id = x := by
  have := List.find?_some h
  simpa using this

theorem nodeMapFind_isSome {nodes : List DiffChunk} {x : String}
    (h : x ∈ nodes.map (fun n => n.id)) : ∃ c, nodeMapFind nodes x = some c := by
  rcases List.mem_map.1 h with ⟨n, hn, hid⟩
  cases hfind : nodeMapFind nodes x with
  | some c => exact ⟨c, rfl⟩
  | none =>
    exfalso
    have := List.find?_eq_none.1 hfind n (by simpa using hn)
    simp [hid] at this

theorem visitCore_zero (g : DependencyGraph) (n : String) (s : SortState) :
    visitCore g 0 n s = s := by
  simp [visitCore]

theorem visitList_nil (g : DependencyGraph) (fuel : Nat) (s : SortState) :
    visitList g fuel [] s = s := by
  simp [visitList]

theorem visitList_cons (g : DependencyGraph) (fuel : Nat) (d : String) (rest : List String)
    (s : SortState) :
    visitList g fuel (d :: rest) s = visitList g fuel rest (visitCore g fuel d s) := by
  simp [visitList]

theorem visitCore_of_mem_temp {g : DependencyGraph} {fuel : Nat} {n : String} {s : SortState}
    (h1 : n ∈ s.temp) : visitCore g (fuel + 1) n s = s := by
  rw [visitCore, if_pos h1]

theorem visitCore_of_mem_visited {g : DependencyGraph} {fuel : Nat} {n : String} {s : SortState}
    (h1 : n ∉ s.temp) (h2 : n ∈ s.visited) : visitCore g (fuel + 1) n s = s := by
  rw [visitCore, if_neg h1, if_pos h2]

theorem visitCore_push {g : DependencyGraph} {fuel : Nat} {n : String} {s : SortState}
    {node : DiffChunk} (h1 : n ∉ s.temp) (h2 : n ∉ s.visited)
    (hfind : nodeMapFind g.nodes n = some node) :
    visitCore g (fuel + 1) n s =
      { visited := insert n (visitList g fuel (depsOf g n) { s with temp := insert n s.temp }).visited,
        temp := (visitList g fuel (depsOf g n) { s with temp := insert n s.temp }).temp.erase n,
        order := (visitList g fuel (depsOf g n) { s with temp := insert n s.temp }).order ++ [node] } := by
  rw [visitCore, if_neg h1, if_neg h2]
  simp only [hfind]

theorem visitCore_nopush {g : DependencyGraph} {fuel : Nat} {n : String} {s : SortState}
    (h1 : n ∉ s.temp) (h2 : n ∉ s.visited) (hfind : nodeMapFind g.nodes n = none) :
    visitCore g (fuel + 1) n s =
      { visited := insert n (visitList g fuel (depsOf g n) { s with temp := insert n s.temp }).visited,
        temp := (visitList g fuel (depsOf g n) { s with temp := insert n s.temp }).temp.erase n,
        order := (visitList g fuel (depsOf g n) { s with temp := insert n s.temp }).order } := by
  rw [visitCore, if_neg h1, if_neg h2]
  simp only [hfind]

/-- Joint basic facts about one `visit` (and about the dependency loop):
the `temp` set is restored, `visited` grows, the output is append-only,
ids newly marked visited were not in-progress at entry, and `InvA` is
preserved. -/
theorem visit_basic (g : DependencyGraph) : ∀ fuel,
    (∀ n s, (visitCore g fuel n s).temp = s.temp ∧
      s.visited ⊆ (visitCore g fuel n s).visited ∧
      (∃ t, (visitCore g fuel n s).order = s.order ++ t) ∧
      (∀ x ∈ (visitCore g fuel n s).visited, x ∈ s.visited ∨ x ∉ s.temp) ∧
      (InvA g s → InvA g (visitCore g fuel n s))) ∧
    (∀ ds s, (visitList g fuel ds s).temp = s.temp ∧
      s.visited ⊆ (visitList g fuel ds s).visited ∧
      (∃ t, (visitList g fuel ds s).order = s.order ++ t) ∧
      (∀ x ∈ (visitList g fuel ds s).visited, x ∈ s.visited ∨ x ∉ s.temp) ∧
      (InvA g s → InvA g (visitList g fuel ds s))) := by
  have listStep : ∀ fuel,
      (∀ n s, (visitCore g fuel n s).temp = s.temp ∧
        s.visited ⊆ (visitCore g fuel n s).visited ∧
        (∃ t, (visitCore g fuel n s).order = s.order ++ t) ∧
        (∀ x ∈ (visitCore g fuel n s).visited, x ∈ s.visited ∨ x ∉ s.temp) ∧
        (InvA g s → InvA g (visitCore g fuel n s))) →
      (∀ ds s, (visitList g fuel ds s).temp = s.temp ∧
        s.visited ⊆ (visitList g fuel ds s).visited ∧
        (∃ t, (visitList g fuel ds s).order = s.order ++ t) ∧
        (∀ x ∈ (visitList g fuel ds s).visited, x ∈ s.visited ∨ x ∉ s.temp) ∧
        (InvA g s → InvA g (visitList g fuel ds s))) := by
    intro fuel hcore ds
    induction ds with
    | nil =>
      intro s
      rw [visitList_nil]
      exact ⟨rfl, fun _ hx => hx, ⟨[], by simp⟩, fun x hx => Or.inl hx, id⟩
    | cons d rest ih =>
      intro s
      rw [visitList_cons]
      obtain ⟨ht1, hv1, ⟨t1, ho1⟩, hn1, hi1⟩ := hcore d s
      obtain ⟨ht2, hv2, ⟨t2, ho2⟩, hn2, hi2⟩ := ih (visitCore g fuel d s)
      refine ⟨by rw [ht2, ht1], fun x hx => hv2 (hv1 hx),
        ⟨t1 ++ t2, by rw [ho2, ho1, List.append_assoc]⟩, ?_, fun hA => hi2 (hi1 hA)⟩
      intro x hx
      rcases hn2 x hx with h | h
      · exact hn1 x h
      · rw [ht1] at h
        exact Or.inr h
  intro fuel
  induction fuel with
  | zero =>
    have hcore : ∀ n s, (visitCore g 0 n s).temp = s.temp ∧
        s.visited ⊆ (visitCore g 0 n s).visited ∧
        (∃ t, (visitCore g 0 n s).order = s.order ++ t) ∧
        (∀ x ∈ (visitCore g 0 n s).visited, x ∈ s.visited ∨ x ∉ s.temp) ∧
        (InvA g s → InvA g (visitCore g 0 n s)) := by
      intro n s
      rw [visitCore_zero]
      exact ⟨rfl, fun _ hx => hx, ⟨[], by simp⟩, fun x hx => Or.inl hx, id⟩
    exact ⟨hcore, listStep 0 hcore⟩
  | succ fuel ih =>
    have hlist := listStep fuel ih.1
    have hcore : ∀ n s, (visitCore g (fuel + 1) n s).temp = s.temp ∧
        s.visited ⊆ (visitCore g (fuel + 1) n s).visited ∧
        (∃ t, (visitCore g (fuel + 1) n s).order = s.order ++ t) ∧
        (∀ x ∈ (visitCore g (fuel + 1) n s).visited, x ∈ s.visited ∨ x ∉ s.temp) ∧
        (InvA g s → InvA g (visitCore g (fuel + 1) n s)) := by
      intro n s
      by_cases h1 : n ∈ s.temp
      · rw [visitCore_of_mem_temp h1]
        exact ⟨rfl, fun _ hx => hx, ⟨[], by simp⟩, fun x hx => Or.inl hx, id⟩
      by_cases h2 : n ∈ s.visited
      · rw [visitCore_of_mem_visited h1 h2]
        exact ⟨rfl, fun _ hx => hx, ⟨[], by simp⟩, fun x hx => Or.inl hx, id⟩
      obtain ⟨lt, lv, ⟨t2, lo⟩, ln, li⟩ := hlist (depsOf g n) { s with temp := insert n s.temp }
      set s2 := visitList g fuel (depsOf g n) { s with temp := insert n s.temp } with hs2
      have hs2temp : s2.temp = insert n s.temp := lt
      have hs2vis : s.visited ⊆ s2.visited := fun x hx => lv hx
      have hnotv2 : n ∉ s2.visited := by
        intro hmem
        rcases ln n hmem with h | h
        · exact h2 h
        · exact h (Finset.mem_insert_self _ _)
      have hnew : ∀ x ∈ s2.visited, x ∈ s.visited ∨ x ∉ s.temp := by
        intro x hx
        rcases ln x hx with h | h
        · exact Or.inl h
        · exact Or.inr (fun hc => h (Finset.mem_insert_of_mem hc))
      have htemp3 : s2.temp.erase n = s.temp := by
        rw [hs2temp, Finset.erase_insert h1]
      have hordeq : s2.order = s.order ++ t2 := lo
      have hInv2 : InvA g s → InvA g s2 := fun hA => li hA
      have hinsnew : ∀ x ∈ insert n s2.visited, x ∈ s.visited ∨ x ∉ s.temp := by
        intro x hx
        rcases Finset.mem_insert.1 hx with rfl | hx
        · exact Or.inr h1
        · exact hnew x hx
      cases hfind : nodeMapFind g.nodes n with
      | none =>
        rw [visitCore_nopush h1 h2 hfind, ← hs2]
        refine ⟨htemp3, fun x hx => Finset.mem_insert_of_mem (hs2vis hx), ⟨t2, hordeq⟩,
          hinsnew, ?_⟩
        intro hA
        obtain ⟨A1, A2, A3, A4⟩ := hInv2 hA
        refine ⟨A1, A2, fun c hc => Finset.mem_insert_of_mem (A3 c hc), ?_⟩
        intro x hx hxn
        replace hx : x ∈ insert n s2.visited := hx
        rcases Finset.mem_insert.1 hx with rfl | hx
        · rcases nodeMapFind_isSome hxn with ⟨c, hc⟩
          rw [hfind] at hc
          exact absurd hc (by simp)
        · exact A4 x hx hxn
      | some node =>
        have hnodemem : node ∈ g.nodes := nodeMapFind_mem hfind
        have hnodeid : node.id = n := nodeMapFind_id hfind
        rw [visitCore_push h1 h2 hfind, ← hs2]
        refine ⟨htemp3, fun x hx => Finset.mem_insert_of_mem (hs2vis hx),
          ⟨t2 ++ [node], by rw [hordeq] at *; exact (List.append_assoc _ _ _).symm ▸ rfl⟩,
          hinsnew, ?_⟩
        intro hA
        obtain ⟨A1, A2, A3, A4⟩ := hInv2 hA
        refine ⟨?_, ?_, ?_, ?_⟩
        · show ((s2.order ++ [node]).map (fun c => c.id)).Nodup
          rw [List.map_append]
          rw [List.nodup_append]
          refine ⟨A1, by simp, ?_⟩
          intro x hx hx2
          simp only [List.map_cons, List.map_nil, List.mem_singleton] at hx2
          subst hx2
          rcases List.mem_map.1 hx with ⟨c, hc, hcid⟩
          have := A3 c hc
          rw [hcid, hnodeid] at this
          exact hnotv2 this
        · intro c hc
          rcases List.mem_append.1 hc with hc | hc
          · exact A2 c hc
          · rw [List.mem_singleton] at hc
            subst hc
            exact hnodemem
        · intro c hc
          rcases List.mem_append.1 hc with hc | hc
          · exact Finset.mem_insert_of_mem (A3 c hc)
          · rw [List.mem_singleton] at hc
            subst hc
            rw [hnodeid]
            exact Finset.mem_insert_self _ _
        · intro x hx hxn
          replace hx : x ∈ insert n s2.visited := hx
          rcases Finset.mem_insert.1 hx with rfl | hx
          · exact ⟨node, List.mem_append_right _ (List.mem_singleton_self _), hnodeid⟩
          · rcases A4 x hx hxn with ⟨c, hc, hcid⟩
            exact ⟨c, List.mem_append_left _ hc, hcid⟩
    exact ⟨hcore, listStep (fuel + 1) hcore⟩

/-- With positive fuel, a `visit(n)` with `n` not in progress always ends
with `n` visited (even when inner fuel runs out: the marking happens after
the dependency loop regardless). -/
theorem visitCore_marks {g : DependencyGraph} {fuel : Nat} {n : String} {s : SortState}
    (h1 : n ∉ s.temp) : n ∈ (visitCore g (fuel + 1) n s).visited := by
  by_cases h2 : n ∈ s.visited
  · rw [visitCore_of_mem_visited h1 h2]
    exact h2
  cases hfind : nodeMapFind g.nodes n with
  | none =>
    rw [visitCore_nopush h1 h2 hfind]
    exact Finset.mem_insert_self _ _
  | some node =>
    rw [visitCore_push h1 h2 hfind]
    exact Finset.mem_insert_self _ _

/-- The step function of `topologicalSort`'s top-level loop. -/
def sortStep (g : DependencyGraph) (s : SortState) (nodeId : String) : SortState :=
  if nodeId ∈ s.visited then s else visitCore g (sortFuel g) nodeId s

theorem sortFuel_succ (g : DependencyGraph) : sortFuel g = (univIds g).length + 1 := rfl

/-- Accumulated facts about the top-level loop: `temp` stays empty, `InvA` is
preserved, and every processed id ends up visited. -/
theorem fold_visit (g : DependencyGraph) : ∀ (L : List String) (s : SortState),
    s.temp = ∅ →
    (L.foldl (sortStep g) s).temp = ∅ ∧
    s.visited ⊆ (L.foldl (sortStep g) s).visited ∧
    (InvA g s → InvA g (L.foldl (sortStep g) s)) ∧
    (∀ x ∈ L, x ∈ (L.foldl (sortStep g) s).visited) := by
  intro L
  induction L with
  | nil =>
    intro s ht
    exact ⟨ht, fun _ hx => hx, id, by simp⟩
  | cons x rest ih =>
    intro s ht
    rw [List.foldl_cons]
    have hstep : (sortStep g s x).temp = ∅ ∧ s.visited ⊆ (sortStep g s x).visited ∧
        (InvA g s → InvA g (sortStep g s x)) ∧ x ∈ (sortStep g s x).visited := by
      unfold sortStep
      by_cases hx : x ∈ s.visited
      · rw [if_pos hx]
        exact ⟨ht, fun _ h => h, id, hx⟩
      · rw [if_neg hx]
        obtain ⟨h1, h2, _, _, h5⟩ := (visit_basic g (sortFuel g)).1 x s
        rw [sortFuel_succ] at *
        refine ⟨by rw [h1, ht], h2, h5, ?_⟩
        exact visitCore_marks (by rw [ht]; exact Finset.not_mem_empty x)
    obtain ⟨hrt, hrv, hri, hrm⟩ := ih (sortStep g s x) hstep.1
    refine ⟨hrt, fun y hy => hrv (hstep.2.1 hy), fun hA => hri (hstep.2.2.1 hA), ?_⟩
    intro y hy
    rcases List.mem_cons.1 hy with rfl | hy
    · exact hrv hstep.2.2.2
    · exact hrm y hy

/-- The final state of `topologicalSort`'s loop. -/
def sortFinal (g : DependencyGraph) : SortState :=
  ((nodeIds g).mergeSort (fun a b => indegree g a ≤ indegree g b)).foldl
    (sortStep g) ⟨∅, ∅, []⟩

theorem topologicalSort_eq_final (g : DependencyGraph) :
    topologicalSort g = (sortFinal g).order := rfl

theorem sortFinal_facts (g : DependencyGraph) :
    InvA g (sortFinal g) ∧ ∀ x ∈ nodeIds g, x ∈ (sortFinal g).visited := by
  have h0 : (⟨∅, ∅, []⟩ : SortState).temp = ∅ := rfl
  obtain ⟨_, _, hi, hm⟩ := fold_visit g
    ((nodeIds g).mergeSort (fun a b => indegree g a ≤ indegree g b)) ⟨∅, ∅, []⟩ h0
  constructor
  · apply hi
    refine ⟨by simp [orderIds], by simp, by simp, ?_⟩
    intro x hx
    exact absurd hx (Finset.not_mem_empty x)
  · intro x hx
    exact hm x ((List.mergeSort_perm (nodeIds g) _).mem_iff.2 hx)

/-- On a graph with pairwise-distinct node ids, the cycle-tolerant
topological sort returns a permutation of the node list. -/
theorem topologicalSort_perm_nodes (g : DependencyGraph)
    (hnodup : (nodeIds g).Nodup) : (topologicalSort g).Perm g.nodes := by
  obtain ⟨⟨A1, A2, A3, A4⟩, hall⟩ := sortFinal_facts g
  rw [topologicalSort_eq_final]
  have hout_nodup : (sortFinal g).order.Nodup := List.Nodup.of_map _ A1
  have hnodes_nodup : g.nodes.Nodup := List.Nodup.of_map _ hnodup
  have hinj : ∀ x ∈ g.nodes, ∀ y ∈ g.nodes, x.id = y.id → x = y :=
    List.inj_on_of_nodup_map hnodup
  rw [List.perm_iff_count]
  intro a
  by_cases ha : a ∈ g.nodes
  · have haout : a ∈ (sortFinal g).order := by
      have hidmem : a.id ∈ nodeIds g := List.mem_map_of_mem _ ha
      rcases A4 a.id (hall a.id hidmem) hidmem with ⟨c, hc, hcid⟩
      have : c = a := hinj c (A2 c hc) a ha hcid
      rwa [this] at hc
    rw [List.count_eq_one_of_mem hout_nodup haout,
      List.count_eq_one_of_mem hnodes_nodup ha]
  · have h1 : a ∉ (sortFinal g).order := fun hc => ha (A2 a hc)
    rw [List.count_eq_zero_of_not_mem h1, List.count_eq_zero_of_not_mem ha]

/-- Claim C1: for every `DependencyGraph` whose nodes carry pairwise-distinct
ids, `topologicalSort` returns a list whose length equals the length of
`nodes` and that contains each node exactly once — with no acyclicity
hypothesis, so this covers graphs whose dependencies contain cycles (the
back-edge into an in-progress node is skipped rather than failing, and the
embedding is a total function, so no exception is raised). -/
theorem topologicalSort_outputs_each_node_once (g : DependencyGraph)
    (hnodup : (nodeIds g).Nodup) :
    (topologicalSort g).length = g.nodes.length ∧
      ∀ c ∈ g.nodes, (topologicalSort g).count c = 1 := by
  have hperm := topologicalSort_perm_nodes g hnodup
  refine ⟨hperm.length_eq, ?_⟩
  intro c hc
  rw [List.perm_iff_count.1 hperm c]
  exact List.count_eq_one_of_mem (List.Nodup.of_map _ hnodup) hc

/-! ## Acyclic graphs: dependencies come first -/

/-- The recorded dependency edge relation: `Edge g a b` holds when the chunk
with id `a` depends on the chunk with id `b`. -/
def Edge (g : DependencyGraph) (a b : String) : Prop := b ∈ depsOf g a

/-- Acyclicity of the recorded dependency relation: no id reaches itself
through a nonempty chain of edges. -/
def Acyclic (g : DependencyGraph) : Prop := ∀ a, ¬ Relation.TransGen (Edge g) a a

/-- A chunk list respects the graph when every chunk's recorded dependencies
appear at strictly smaller indices. -/
def GoodOrd (g : DependencyGraph) (l : List DiffChunk) : Prop :=
  ∀ (i : Nat) (hi : i < l.length), ∀ d ∈ depsOf g (l[i]).id,
    ∃ (j : Nat) (hj : j < l.length), j < i ∧ (l[j]).id = d

theorem goodOrd_nil (g : DependencyGraph) : GoodOrd g [] := by
  intro i hi
  simp at hi

theorem goodOrd_append (g : DependencyGraph) {l : List DiffChunk} {node : DiffChunk}
    (h : GoodOrd g l) (hdeps : ∀ d ∈ depsOf g node.id, ∃ c ∈ l, c.id = d) :
    GoodOrd g (l ++ [node]) := by
  intro i hi d hd
  rw [List.length_append, List.length_singleton] at hi
  by_cases hil : i < l.length
  · rw [List.getElem_append_left hil] at hd
    rcases h i hil d hd with ⟨j, hj, hji, hjid⟩
    exact ⟨j, by rw [List.length_append]; omega, hji,
      by rw [List.getElem_append_left hj]; exact hjid⟩
  · have hieq : i = l.length := le_antisymm (Nat.lt_succ_iff.1 hi) (Nat.not_lt.1 hil)
    subst hieq
    simp only [List.getElem_concat_length] at hd
    rcases hdeps d hd with ⟨c, hc, hcid⟩
    rcases List.mem_iff_getElem.1 hc with ⟨j, hj, hjc⟩
    exact ⟨j, by rw [List.length_append]; omega, hj,
      by rw [List.getElem_append_left hj, hjc]; exact hcid⟩

theorem recLookup_mem {α : Type} : ∀ {l : List (String × α)} {x : String} {v : α},
    recLookup l x = some v → (x, v) ∈ l := by
  intro l
  induction l with
  | nil => intro x v h; simp [recLookup] at h
  | cons p rest ih =>
    obtain ⟨k, w⟩ := p
    intro x v h
    simp only [recLookup] at h
    by_cases hx : x = k
    · rw [if_pos hx] at h
      injection h with h
      rw [hx, h]
      exact List.mem_cons_self _ _
    · rw [if_neg hx] at h
      exact List.mem_cons_of_mem _ (ih h)

/-- In the acyclic case (with dependency lists referencing only node ids),
one `visit` with the chain precondition on `temp` and enough fuel produces a
dependency-respecting order and visits its argument. -/
theorem visit_acyclic (g : DependencyGraph) (hacyc : Acyclic g)
    (hclosed : ∀ x, ∀ d ∈ depsOf g x, d ∈ nodeIds g) : ∀ fuel,
    (∀ n s, n ∈ nodeIds g →
      (∀ t ∈ s.temp, Relation.TransGen (Edge g) t n) →
      sortFuel g ≤ fuel + s.temp.card →
      (∀ t ∈ s.temp, t ∈ univIds g) →
      InvA g s → GoodOrd g s.order →
      GoodOrd g (visitCore g fuel n s).order ∧ n ∈ (visitCore g fuel n s).visited) ∧
    (∀ ds s, (∀ d ∈ ds, d ∈ nodeIds g) →
      (∀ d ∈ ds, ∀ t ∈ s.temp, Relation.TransGen (Edge g) t d) →
      sortFuel g ≤ fuel + s.temp.card →
      (∀ t ∈ s.temp, t ∈ univIds g) →
      InvA g s → GoodOrd g s.order →
      GoodOrd g (visitList g fuel ds s).order ∧ (∀ d ∈ ds, d ∈ (visitList g fuel ds s).visited)) := by
  have fuelZero : ∀ s : SortState, (∀ t ∈ s.temp, t ∈ univIds g) →
      ¬ (sortFuel g ≤ 0 + s.temp.card) := by
    intro s hsub hle
    have h1 : s.temp ⊆ (univIds g).toFinset := by
      intro t ht
      rw [List.mem_toFinset]
      exact hsub t ht
    have h2 : s.temp.card ≤ (univIds g).length :=
      le_trans (Finset.card_le_card h1) (List.toFinset_card_le _)
    rw [sortFuel_succ] at hle
    omega
  have listStep : ∀ fuel,
      (∀ n s, n ∈ nodeIds g →
        (∀ t ∈ s.temp, Relation.TransGen (Edge g) t n) →
        sortFuel g ≤ fuel + s.temp.card →
        (∀ t ∈ s.temp, t ∈ univIds g) →
        InvA g s → GoodOrd g s.order →
        GoodOrd g (visitCore g fuel n s).order ∧ n ∈ (visitCore g fuel n s).visited) →
      (∀ ds s, (∀ d ∈ ds, d ∈ nodeIds g) →
        (∀ d ∈ ds, ∀ t ∈ s.temp, Relation.TransGen (Edge g) t d) →
        sortFuel g ≤ fuel + s.temp.card →
        (∀ t ∈ s.temp, t ∈ univIds g) →
        InvA g s → GoodOrd g s.order →
        GoodOrd g (visitList g fuel ds s).order ∧
          (∀ d ∈ ds, d ∈ (visitList g fuel ds s).visited)) := by
    intro fuel hcore ds
    induction ds with
    | nil =>
      intro s _ _ _ _ _ hgood
      rw [visitList_nil]
      exact ⟨hgood, by simp⟩
    | cons d rest ih =>
      intro s hmem hch hfu hsub hInv hgood
      rw [visitList_cons]
      obtain ⟨hg1, hv1⟩ := hcore d s (hmem d (List.mem_cons_self d rest))
        (hch d (List.mem_cons_self d rest)) hfu hsub hInv hgood
      obtain ⟨bt1, bv1, _, _, bi1⟩ := (visit_basic g fuel).1 d s
      have hInv1 : InvA g (visitCore g fuel d s) := bi1 hInv
      have hrest := ih (visitCore g fuel d s)
        (fun x hx => hmem x (List.mem_cons_of_mem _ hx))
        (fun x hx t ht => hch x (List.mem_cons_of_mem _ hx) t (by rwa [bt1] at ht))
        (by rwa [bt1]) (fun t ht => hsub t (by rwa [bt1] at ht)) hInv1 hg1
      refine ⟨hrest.1, ?_⟩
      intro x hx
      rcases List.mem_cons.1 hx with h | hx
      · obtain ⟨_, bv2, _, _, _⟩ := (visit_basic g fuel).2 rest (visitCore g fuel d s)
        rw [h]
        exact bv2 hv1
      · exact hrest.2 x hx
  intro fuel
  induction fuel with
  | zero =>
    have hcore : ∀ n s, n ∈ nodeIds g →
        (∀ t ∈ s.temp, Relation.TransGen (Edge g) t n) →
        sortFuel g ≤ 0 + s.temp.card →
        (∀ t ∈ s.temp, t ∈ univIds g) →
        InvA g s → GoodOrd g s.order →
        GoodOrd g (visitCore g 0 n s).order ∧ n ∈ (visitCore g 0 n s).visited := by
      intro n s _ _ hfu hsub _ _
      exact absurd hfu (fuelZero s hsub)
    exact ⟨hcore, listStep 0 hcore⟩
  | succ fuel ih =>
    have hlist := listStep fuel ih.1
    have hcore : ∀ n s, n ∈ nodeIds g →
        (∀ t ∈ s.temp, Relation.TransGen (Edge g) t n) →
        sortFuel g ≤ (fuel + 1) + s.temp.card →
        (∀ t ∈ s.temp, t ∈ univIds g) →
        InvA g s → GoodOrd g s.order →
        GoodOrd g (visitCore g (fuel + 1) n s).order ∧
          n ∈ (visitCore g (fuel + 1) n s).visited := by
      intro n s hn hch hfu hsub hInv hgood
      by_cases h1 : n ∈ s.temp
      · exact absurd (hch n h1) (hacyc n)
      by_cases h2 : n ∈ s.visited
      · rw [visitCore_of_mem_visited h1 h2]
        exact ⟨hgood, h2⟩
      have hs1temp : ({ s with temp := insert n s.temp } : SortState).temp = insert n s.temp := rfl
      have hchain1 : ∀ d ∈ depsOf g n, ∀ t ∈ insert n s.temp,
          Relation.TransGen (Edge g) t d := by
        intro d hd t ht
        rcases Finset.mem_insert.1 ht with rfl | ht
        · exact Relation.TransGen.single hd
        · exact Relation.TransGen.tail (hch t ht) hd
      have hsub1 : ∀ t ∈ insert n s.temp, t ∈ univIds g := by
        intro t ht
        rcases Finset.mem_insert.1 ht with rfl | ht
        · exact List.mem_append_left _ hn
        · exact hsub t ht
      have hfu1 : sortFuel g ≤ fuel + (insert n s.temp).card := by
        rw [Finset.card_insert_of_not_mem h1]
        omega
      obtain ⟨hg2, hv2⟩ := hlist (depsOf g n) { s with temp := insert n s.temp }
        (hclosed n) hchain1 hfu1 hsub1 hInv hgood
      obtain ⟨_, _, _, _, bi2⟩ := (visit_basic g fuel).2 (depsOf g n)
        { s with temp := insert n s.temp }
      have hInv2 : InvA g (visitList g fuel (depsOf g n) { s with temp := insert n s.temp }) :=
        bi2 hInv
      rcases nodeMapFind_isSome (show n ∈ g.nodes.map (fun c => c.id) from hn) with ⟨node, hfind⟩
      have hnodeid : node.id = n := nodeMapFind_id hfind
      rw [visitCore_push h1 h2 hfind]
      constructor
      · show GoodOrd g ((visitList g fuel (depsOf g n) { s with temp := insert n s.temp }).order ++ [node])
        apply goodOrd_append g hg2
        intro d hd
        rw [hnodeid] at hd
        have hdv := hv2 d hd
        have hdn : d ∈ nodeIds g := hclosed n d hd
        exact hInv2.2.2.2 d hdv hdn
      · exact Finset.mem_insert_self _ _
    exact ⟨hcore, listStep (fuel + 1) hcore⟩

/-- The top-level loop preserves `GoodOrd` in the acyclic case. -/
theorem fold_visit_good (g : DependencyGraph) (hacyc : Acyclic g)
    (hclosed : ∀ x, ∀ d ∈ depsOf g x, d ∈ nodeIds g) :
    ∀ (L : List String) (s : SortState), (∀ x ∈ L, x ∈ nodeIds g) →
      s.temp = ∅ → InvA g s → GoodOrd g s.order →
      GoodOrd g (L.foldl (sortStep g) s).order := by
  intro L
  induction L with
  | nil =>
    intro s _ _ _ hgood
    exact hgood
  | cons x rest ih =>
    intro s hmem ht hInv hgood
    rw [List.foldl_cons]
    have hstep : (sortStep g s x).temp = ∅ ∧ InvA g (sortStep g s x) ∧
        GoodOrd g (sortStep g s x).order := by
      unfold sortStep
      by_cases hx : x ∈ s.visited
      · rw [if_pos hx]
        exact ⟨ht, hInv, hgood⟩
      · rw [if_neg hx]
        obtain ⟨bt, _, _, _, bi⟩ := (visit_basic g (sortFuel g)).1 x s
        obtain ⟨hg, _⟩ := (visit_acyclic g hacyc hclosed (sortFuel g)).1 x s
          (hmem x (List.mem_cons_self x rest))
          (by rw [ht]; intro t htm; exact absurd htm (Finset.not_mem_empty t))
          (by rw [ht]; simp)
          (by rw [ht]; intro t htm; exact absurd htm (Finset.not_mem_empty t))
          hInv hgood
        exact ⟨by rw [bt, ht], bi hInv, hg⟩
    exact ih (sortStep g s x) (fun y hy => hmem y (List.mem_cons_of_mem _ hy))
      hstep.1 hstep.2.1 hstep.2.2

/-- Claim C2: on an acyclic graph whose recorded dependency lists reference
only ids present in `nodes`, the output of `topologicalSort` places every
recorded dependency `b` of a node id `a` at a strictly smaller index than
`a`. -/
theorem topologicalSort_dependencies_first (g : DependencyGraph)
    (hclosed : ∀ p ∈ g.dependencies, ∀ d ∈ p.2, d ∈ nodeIds g)
    (hacyc : Acyclic g) :
    ∀ a b, a ∈ nodeIds g → b ∈ depsOf g a →
      ∃ (i j : Nat) (hi : i < (topologicalSort g).length)
        (hj : j < (topologicalSort g).length),
        i < j ∧ ((topologicalSort g)[i]).id = b ∧ ((topologicalSort g)[j]).id = a := by
  have hclosed' : ∀ x, ∀ d ∈ depsOf g x, d ∈ nodeIds g := by
    intro x d hd
    unfold depsOf at hd
    cases hl : recLookup g.dependencies x with
    | none => rw [hl] at hd; simp at hd
    | some v =>
      rw [hl] at hd
      simp only [Option.getD_some] at hd
      exact hclosed (x, v) (recLookup_mem hl) d hd
  obtain ⟨⟨A1, A2, A3, A4⟩, hall⟩ := sortFinal_facts g
  have hgood : GoodOrd g (sortFinal g).order := by
    apply fold_visit_good g hacyc hclosed'
    · intro x hx
      exact (List.mergeSort_perm (nodeIds g) _).mem_iff.1 hx
    · rfl
    · refine ⟨by simp [orderIds], by simp, by simp, ?_⟩
      intro x hx
      exact absurd hx (Finset.not_mem_empty x)
    · exact goodOrd_nil g
  intro a b ha hb
  rcases A4 a (hall a ha) ha with ⟨c, hc, hcid⟩
  rcases List.mem_iff_getElem.1 hc with ⟨j, hj, hjc⟩
  have hdeps : b ∈ depsOf g (((sortFinal g).order)[j]).id := by
    rw [hjc, hcid]
    exact hb
  rcases hgood j hj b hdeps with ⟨i, hi, hij, hib⟩
  rw [topologicalSort_eq_final]
  exact ⟨i, j, hi, hj, hij, hib, by rw [hjc]; exact hcid⟩

/-- The spec's end-to-end example graph: an interfaces chunk, a repository
chunk implementing it and a service chunk consuming it, with dependencies
`userRepository → interfaces` and `userService → interfaces`. -/
def gAcycW : DependencyGraph :=
  { nodes := [⟨"interfaces-1", "interface User", "interfaces.ts", none⟩,
              ⟨"userRepository-1", "class UserRepositoryImpl", "userRepository.ts", none⟩,
              ⟨"userService-1", "class UserService", "userService.ts", none⟩],
    dependencies := [("interfaces-1", []),
                     ("userRepository-1", ["interfaces-1"]),
                     ("userService-1", ["interfaces-1"])] }

theorem gAcycW_deps (x : String) :
    depsOf gAcycW x = [] ∨ depsOf gAcycW x = ["interfaces-1"] := by
  by_cases h1 : x = "interfaces-1"
  · left; simp [depsOf, recLookup, gAcycW, h1]
  by_cases h2 : x = "userRepository-1"
  · right; simp [depsOf, recLookup, gAcycW, h1, h2]
  by_cases h3 : x = "userService-1"
  · right; simp [depsOf, recLookup, gAcycW, h1, h2, h3]
  · left; simp [depsOf, recLookup, gAcycW, h1, h2, h3]

theorem gAcycW_acyclic : Acyclic gAcycW := by
  have hnone : depsOf gAcycW "interfaces-1" = [] := rfl
  have htgt : ∀ x y, Edge gAcycW x y → y = "interfaces-1" := by
    intro x y hxy
    unfold Edge at hxy
    rcases gAcycW_deps x with h | h <;> rw [h] at hxy
    · exact absurd hxy (List.not_mem_nil y)
    · simpa using hxy
  intro a h
  have ha : a = "interfaces-1" := by
    cases h with
    | single h1 => exact htgt _ _ h1
    | tail h1 h2 => exact htgt _ _ h2
  subst ha
  rcases Relation.TransGen.head'_iff.1 h with ⟨c, h1, _⟩
  unfold Edge at h1
  rw [hnone] at h1
  exact absurd h1 (List.not_mem_nil _)

/-- Witness for claim C2 on the spec's interfaces/repository/service example. -/
theorem topologicalSort_dependencies_first_witness :
    (∀ p ∈ gAcycW.dependencies, ∀ d ∈ p.2, d ∈ nodeIds gAcycW) ∧
      ∀ a b, a ∈ nodeIds gAcycW → b ∈ depsOf gAcycW a →
        ∃ (i j : Nat) (hi : i < (topologicalSort gAcycW).length)
          (hj : j < (topologicalSort gAcycW).length),
          i < j ∧ ((topologicalSort gAcycW)[i]).id = b ∧
            ((topologicalSort gAcycW)[j]).id = a :=
  ⟨by decide, topologicalSort_dependencies_first gAcycW (by decide) gAcycW_acyclic⟩

/-- A concrete graph with a 3-cycle (A depends on C, C on B, B on A),
exercising the witness of claim C1. -/
def gCycW : DependencyGraph :=
  { nodes := [⟨"chunk1", "component A", "a.ts", none⟩,
              ⟨"chunk2", "component B", "b.ts", none⟩,
              ⟨"chunk3", "component C", "c.ts", none⟩],
    dependencies := [("chunk1", ["chunk3"]), ("chunk2", ["chunk1"]), ("chunk3", ["chunk2"])] }

/-- Witness for claim C1 on the cyclic three-node graph of the repository's
own test suite. -/
theorem topologicalSort_outputs_each_node_once_witness :
    (nodeIds gCycW).Nodup ∧
      ((topologicalSort gCycW).length = gCycW.nodes.length ∧
        ∀ c ∈ gCycW.nodes, (topologicalSort gCycW).count c = 1) :=
  ⟨by decide, topologicalSort_outputs_each_node_once gCycW (by decide)⟩

/-! ## Decimal numerals

Facts about `Nat.repr` (the `toString` used by the source when forming chunk
ids `filename + '-' + ordinal`): its characters are digits, and it is
injective. -/

theorem digitChar_isDigit {m : Nat} (h : m < 10) : (Nat.digitChar m).isDigit = true := by
  interval_cases m <;> decide

/-- Numeric value of a digit character. -/
def digitVal (c : Char) : Nat := c.toNat - '0'.toNat

theorem digitVal_digitChar {m : Nat} (h : m < 10) : digitVal (Nat.digitChar m) = m := by
  interval_cases m <;> decide

theorem toDigitsCore_acc (b : Nat) : ∀ (f n : Nat) (ds : List Char),
    Nat.toDigitsCore b f n ds = Nat.toDigitsCore b f n [] ++ ds := by
  intro f
  induction f with
  | zero => intro n ds; simp [Nat.toDigitsCore]
  | succ f ih =>
    intro n ds
    simp only [Nat.toDigitsCore]
    by_cases h : n / b = 0
    · rw [if_pos h, if_pos h]
      rfl
    · rw [if_neg h, if_neg h,
        ih (n / b) (Nat.digitChar (n % b) :: ds), ih (n / b) [Nat.digitChar (n % b)],
        List.append_assoc]
      rfl

theorem toDigitsCore_fuel : ∀ (n f₁ f₂ : Nat), n < f₁ → n < f₂ →
    Nat.toDigitsCore 10 f₁ n [] = Nat.toDigitsCore 10 f₂ n [] := by
  intro n
  induction n using Nat.strong_induction_on with
  | _ n ih =>
    intro f₁ f₂ h₁ h₂
    obtain ⟨a, rfl⟩ : ∃ a, f₁ = a + 1 := ⟨f₁ - 1, by omega⟩
    obtain ⟨b2, rfl⟩ : ∃ b2, f₂ = b2 + 1 := ⟨f₂ - 1, by omega⟩
    simp only [Nat.toDigitsCore]
    by_cases h : n / 10 = 0
    · rw [if_pos h, if_pos h]
    · rw [if_neg h, if_neg h]
      have hpos : 0 < n := by
        rcases Nat.eq_zero_or_pos n with rfl | hp
        · simp at h
        · exact hp
      have hlt : n / 10 < n := Nat.div_lt_self hpos (by omega)
      rw [toDigitsCore_acc 10 a (n / 10) [Nat.digitChar (n % 10)],
        toDigitsCore_acc 10 b2 (n / 10) [Nat.digitChar (n % 10)],
        ih (n / 10) hlt a b2 (by omega) (by omega)]

/-- The value of a most-significant-first digit string. -/
def valD (l : List Char) : Nat := l.foldl (fun a c => 10 * a + digitVal c) 0

theorem valD_append_one (xs : List Char) (c : Char) :
    valD (xs ++ [c]) = 10 * valD xs + digitVal c := by
  simp [valD, List.foldl_append]

theorem valD_toDigits : ∀ n : Nat, valD (Nat.toDigits 10 n) = n := by
  intro n
  induction n using Nat.strong_induction_on with
  | _ n ih =>
    show valD (Nat.toDigitsCore 10 (n + 1) n []) = n
    simp only [Nat.toDigitsCore]
    by_cases h : n / 10 = 0
    · rw [if_pos h]
      have hn : n < 10 := by omega
      have hmod : n % 10 = n := Nat.mod_eq_of_lt hn
      show valD [Nat.digitChar (n % 10)] = n
      rw [show valD [Nat.digitChar (n % 10)] = 10 * 0 + digitVal (Nat.digitChar (n % 10)) from rfl,
        digitVal_digitChar (Nat.mod_lt n (by omega)), hmod]
      omega
    · rw [if_neg h]
      have hpos : 0 < n := by
        rcases Nat.eq_zero_or_pos n with rfl | hp
        · simp at h
        · exact hp
      have hlt : n / 10 < n := Nat.div_lt_self hpos (by omega)
      rw [toDigitsCore_acc 10 n (n / 10) [Nat.digitChar (n % 10)], valD_append_one]
      have hfuel : Nat.toDigitsCore 10 n (n / 10) [] = Nat.toDigits 10 (n / 10) :=
        toDigitsCore_fuel (n / 10) n (n / 10 + 1) (by omega) (by omega)
      rw [hfuel, ih (n / 10) hlt, digitVal_digitChar (Nat.mod_lt n (by omega))]
      omega

theorem repr_data (n : Nat) : (Nat.repr n).data = Nat.toDigits 10 n := rfl

theorem repr_data_inj {m n : Nat} (h : (Nat.repr m).data = (Nat.repr n).data) : m = n := by
  rw [repr_data, repr_data] at h
  have := congrArg valD h
  rwa [valD_toDigits, valD_toDigits] at this

theorem toDigitsCore_digits : ∀ (f n : Nat) (ds : List Char),
    (∀ c ∈ ds, c.isDigit = true) → ∀ c ∈ Nat.toDigitsCore 10 f n ds, c.isDigit = true := by
  intro f
  induction f with
  | zero =>
    intro n ds hds c hc
    exact hds c hc
  | succ f ih =>
    intro n ds hds c hc
    simp only [Nat.toDigitsCore] at hc
    have hcons : ∀ x ∈ Nat.digitChar (n % 10) :: ds, x.isDigit = true := by
      intro x hx
      rcases List.mem_cons.1 hx with rfl | hx
      · exact digitChar_isDigit (Nat.mod_lt n (by omega))
      · exact hds x hx
    by_cases h : n / 10 = 0
    · rw [if_pos h] at hc
      exact hcons c hc
    · rw [if_neg h] at hc
      exact ih (n / 10) _ hcons c hc

theorem repr_no_dash (n : Nat) : '-' ∉ (Nat.repr n).data := by
  intro hmem
  rw [repr_data] at hmem
  have := toDigitsCore_digits (n + 1) n [] (by simp) '-' hmem
  simp at this

theorem sep_split_first {c : Char} : ∀ (xs ys u v : List Char), c ∉ xs → c ∉ ys →
    xs ++ c :: u = ys ++ c :: v → xs = ys ∧ u = v := by
  intro xs
  induction xs with
  | nil =>
    intro ys u v _ hys h
    cases ys with
    | nil =>
      rw [List.nil_append, List.nil_append] at h
      exact ⟨rfl, List.tail_eq_of_cons_eq h⟩
    | cons y ys2 =>
      rw [List.nil_append, List.cons_append] at h
      have hcy : c = y := List.head_eq_of_cons_eq h
      exact absurd (hcy ▸ List.mem_cons_self y ys2) hys
  | cons x xs2 ih =>
    intro ys u v hxs hys h
    cases ys with
    | nil =>
      rw [List.cons_append, List.nil_append] at h
      have hxc : x = c := List.head_eq_of_cons_eq h
      exact absurd (hxc ▸ List.mem_cons_self x xs2) (hxc ▸ hxs)
    | cons y ys2 =>
      rw [List.cons_append, List.cons_append] at h
      have hxy : x = y := List.head_eq_of_cons_eq h
      have htail := List.tail_eq_of_cons_eq h
      obtain ⟨h1, h2⟩ := ih ys2 u v (fun hm => hxs (List.mem_cons_of_mem _ hm))
        (fun hm => hys (List.mem_cons_of_mem _ hm)) htail
      exact ⟨by rw [hxy, h1], h2⟩

theorem sep_split_last {c : Char} {xs ys u v : List Char} (hu : c ∉ u) (hv : c ∉ v)
    (h : xs ++ c :: u = ys ++ c :: v) : xs = ys ∧ u = v := by
  have hrev : u.reverse ++ c :: xs.reverse = v.reverse ++ c :: ys.reverse := by
    have := congrArg List.reverse h
    simpa [List.reverse_append] using this
  obtain ⟨h1, h2⟩ := sep_split_first u.reverse v.reverse xs.reverse ys.reverse
    (by simpa using hu) (by simpa using hv) hrev
  exact ⟨List.reverse_injective h2, List.reverse_injective h1⟩

/-- The chunk-id scheme of `mergeDiffChunks`: `filename + '-' + ordinal`. -/
def encId (a : String) (k : Nat) : String := a ++ "-" ++ Nat.repr k

theorem encId_inj {a b : String} {i j : Nat} (h : encId a i = encId b j) :
    a = b ∧ i = j := by
  have hd : a.data ++ '-' :: (Nat.repr i).data = b.data ++ '-' :: (Nat.repr j).data := by
    have h2 := congrArg String.data h
    simp only [encId, String.data_append] at h2
    simpa using h2
  obtain ⟨h1, h2⟩ := sep_split_last (repr_no_dash i) (repr_no_dash j) hd
  refine ⟨?_, repr_data_inj h2⟩
  cases a
  cases b
  exact congrArg String.mk h1

/-! ## Diff chunk extraction and merging (`src/tools/diffTool.ts`)

`mergeDiffChunks` receives the output of the external `parse-diff` library:
a list of files, each with hunks (called `chunks` by `parse-diff`), each hunk
with typed changes.  A binary-file entry has an empty `chunks` array. -/

inductive ChangeType
  | add
  | del
  | normal
deriving DecidableEq, Repr

structure Change where
  type : ChangeType
  content : String
deriving DecidableEq, Repr

structure Hunk where
  oldStart : Nat
  oldLines : Nat
  newStart : Nat
  newLines : Nat
  changes : List Change
deriving DecidableEq, Repr

structure File where
  «to» : Option String
  «from» : Option String
  chunks : List Hunk
deriving DecidableEq, Repr

/-- JS `a || b` on an optional string: `undefined` and the empty string are
falsy. -/
def jsOrS : Option String → String → String
  | none, d => d
  | some s, d => if s = "" then d else s

/-- `file.to || file.from || 'unknown'`. -/
def fileName (f : File) : String := jsOrS f.«to» (jsOrS f.«from» "unknown")

/-- The `+`/`-`/space character prefixed to a change line. -/
def changePfx (t : ChangeType) : String :=
  match t with
  | .add => "+"
  | .del => "-"
  | .normal => " "

/-- One line of the rebuilt patch: `${prefix}${change.content}`. -/
def pfxLine (ch : Change) : String := changePfx ch.type ++ ch.content

/-- The rebuilt hunk header `@@ -oldStart,oldLines +newStart,newLines @@`. -/
def headerStr (c : Hunk) : String :=
  "@@ -" ++ Nat.repr c.oldStart ++ "," ++ Nat.repr c.oldLines ++
    " +" ++ Nat.repr c.newStart ++ "," ++ Nat.repr c.newLines ++ " @@"

/-- The `mergedPatch` accumulation of `mergeDiffChunks`: for each hunk the
header, then each change line, each followed by a newline. -/
def filePatchRaw (f : File) : String :=
  f.chunks.foldl (fun acc c =>
    c.changes.foldl (fun acc2 ch => acc2 ++ pfxLine ch ++ "\n")
      (acc ++ headerStr c ++ "\n")) ""

/-- The `mergedContent` accumulation of `mergeDiffChunks`: every `add` or
`normal` change line, followed by a newline. -/
def fileContentRaw (f : File) : String :=
  f.chunks.foldl (fun acc c =>
    c.changes.foldl (fun acc2 ch =>
      if ch.type = ChangeType.add ∨ ch.type = ChangeType.normal then
        acc2 ++ ch.content ++ "\n"
      else acc2) acc) ""

/-- JS `String.prototype.trim()`: strip whitespace from both ends. -/
def trimData (l : List Char) : List Char :=
  ((l.dropWhile Char.isWhitespace).reverse.dropWhile Char.isWhitespace).reverse

/-- JS `String.prototype.trim()` on strings. -/
def trimJS (s : String) : String := String.mk (trimData s.data)

/-- One iteration of the `for (const file of files)` loop of
`mergeDiffChunks`: binary/empty files (no hunks) are skipped, otherwise the
occurrence counter for the filename is bumped and a single merged chunk is
appended, with id `filename + '-' + (existingCount + 1)`. -/
def mergeStep (st : (String → Nat) × List DiffChunk) (f : File) :
    (String → Nat) × List DiffChunk :=
  if f.chunks = [] then st
  else
    let filename := fileName f
    let existingCount := st.1 filename
    (fun x => if x = filename then existingCount + 1 else st.1 x,
     st.2 ++ [{ id := filename ++ "-" ++ Nat.repr (existingCount + 1),
                content := trimJS (fileContentRaw f),
                filename := filename,
                patch := some (trimJS (filePatchRaw f)) }])

/-- `mergeDiffChunks` from `src/tools/diffTool.ts` (lines 40-92). -/
def mergeDiffChunks (files : List File) : List DiffChunk :=
  (files.foldl mergeStep (fun _ => 0, [])).2

/-! ### Chunk ids are distinct (claim C10) -/

/-- Invariant of the merge loop: ids are distinct, the filename counter
matches the number of emitted chunks per filename, every id is
`filename + '-' + k` with `k` between 1 and the counter, and positionally
the ordinal of the `i`-th chunk counts the occurrences of its filename up
to and including itself. -/
def MergeInv (st : (String → Nat) × List DiffChunk) : Prop :=
  (st.2.map (fun c => c.id)).Nodup ∧
  (∀ a, st.1 a = st.2.countP (fun c => c.filename = a)) ∧
  (∀ c ∈ st.2, ∃ k, 1 ≤ k ∧ k ≤ st.1 c.filename ∧ c.id = encId c.filename k) ∧
  (∀ (i : Nat) (hi : i < st.2.length),
    (st.2[i]).id = encId (st.2[i]).filename
      ((st.2.take (i + 1)).countP (fun d => d.filename = (st.2[i]).filename)))

theorem mergeInv_step {st : (String → Nat) × List DiffChunk} (f : File)
    (h : MergeInv st) : MergeInv (mergeStep st f) := by
  obtain ⟨h1, h2, h3, h4⟩ := h
  unfold mergeStep
  by_cases hempty : f.chunks = []
  · rw [if_pos hempty]
    exact ⟨h1, h2, h3, h4⟩
  rw [if_neg hempty]
  set fn := fileName f with hfn
  set cnt := st.1 fn with hcnt
  set newC : DiffChunk :=
    { id := fn ++ "-" ++ Nat.repr (cnt + 1),
      content := trimJS (fileContentRaw f),
      filename := fn,
      patch := some (trimJS (filePatchRaw f)) } with hnewC
  have hnewid : newC.id = encId fn (cnt + 1) := rfl
  have hnewfn : newC.filename = fn := rfl
  have hnotmem : newC.id ∉ st.2.map (fun c => c.id) := by
    intro hmem
    rcases List.mem_map.1 hmem with ⟨c, hc, hcid⟩
    rcases h3 c hc with ⟨k, hk1, hk2, hkenc⟩
    rw [hnewid] at hcid
    rw [hkenc] at hcid
    obtain ⟨hfeq, hkeq⟩ := encId_inj hcid
    rw [hfeq] at hk2
    omega
  refine ⟨?_, ?_, ?_, ?_⟩
  · show ((st.2 ++ [newC]).map (fun c => c.id)).Nodup
    rw [List.map_append, List.nodup_append]
    refine ⟨h1, by simp, ?_⟩
    intro x hx hx2
    simp only [List.map_cons, List.map_nil, List.mem_singleton] at hx2
    rw [hx2] at hx
    exact hnotmem hx
  · intro a
    show (if a = fn then cnt + 1 else st.1 a) = (st.2 ++ [newC]).countP (fun c => c.filename = a)
    rw [List.countP_append]
    by_cases ha : a = fn
    · subst ha
      rw [if_pos rfl]
      have hc2 : List.countP (fun c => decide (c.filename = fn)) st.2 = cnt := (h2 fn).symm
      simp [hc2, hnewfn, List.countP_cons]
    · rw [if_neg ha, h2 a]
      have : ¬ (newC.filename = a) := by rw [hnewfn]; exact fun hc => ha hc.symm
      simp [this]
  · intro c hc
    rcases List.mem_append.1 hc with hc | hc
    · rcases h3 c hc with ⟨k, hk1, hk2, hkenc⟩
      refine ⟨k, hk1, ?_, hkenc⟩
      show k ≤ if c.filename = fn then cnt + 1 else st.1 c.filename
      by_cases hcf : c.filename = fn
      · rw [if_pos hcf]
        rw [hcf] at hk2
        omega
      · rw [if_neg hcf]
        exact hk2
    · rw [List.mem_singleton] at hc
      subst hc
      refine ⟨cnt + 1, by omega, ?_, hnewid⟩
      show cnt + 1 ≤ if newC.filename = fn then cnt + 1 else st.1 newC.filename
      rw [if_pos hnewfn]
  · intro i hi
    rw [List.length_append, List.length_singleton] at hi
    by_cases hil : i < st.2.length
    · have hgl : (st.2 ++ [newC])[i] = st.2[i] := List.getElem_append_left hil
      have htk : (st.2 ++ [newC]).take (i + 1) = st.2.take (i + 1) :=
        List.take_append_of_le_length hil
      rw [hgl, htk]
      exact h4 i hil
    · have hieq : i = st.2.length := le_antisymm (Nat.lt_succ_iff.1 hi) (Nat.not_lt.1 hil)
      subst hieq
      simp only [List.getElem_concat_length]
      have htk : (st.2 ++ [newC]).take (st.2.length + 1) = st.2 ++ [newC] :=
        List.take_of_length_le (by simp)
      rw [htk, List.countP_append, (h2 fn).symm]
      have hc1 : List.countP (fun d => decide (d.filename = fn)) [newC] = 1 := by
        simp [hnewfn]
      rw [hc1]
      rfl

theorem mergeInv_fold (files : List File) :
    ∀ st, MergeInv st → MergeInv (files.foldl mergeStep st) := by
  induction files with
  | nil => intro st h; exact h
  | cons f rest ih =>
    intro st h
    rw [List.foldl_cons]
    exact ih _ (mergeInv_step f h)

/-- Claim C10: the chunk ids produced by `mergeDiffChunks` are pairwise
distinct, and the `i`-th merged chunk's id is its filename followed by `-`
and the 1-based count of occurrences of that filename so far (so a first,
unrepeated file gets the suffix `-1`, repeats get `-2`, `-3`, ...). -/
theorem mergeDiffChunks_ids_distinct (files : List File) :
    ((mergeDiffChunks files).map (fun c => c.id)).Nodup ∧
    ∀ (i : Nat) (hi : i < (mergeDiffChunks files).length),
      ((mergeDiffChunks files)[i]).id =
        ((mergeDiffChunks files)[i]).filename ++ "-" ++
          Nat.repr (((mergeDiffChunks files).take (i + 1)).countP
            (fun d => d.filename = ((mergeDiffChunks files)[i]).filename)) := by
  have hinit : MergeInv ((fun _ => 0 : String → Nat), ([] : List DiffChunk)) := by
    refine ⟨by simp, by simp, by simp, ?_⟩
    intro i hi
    simp at hi
  obtain ⟨g1, _, _, g4⟩ := mergeInv_fold files _ hinit
  exact ⟨g1, g4⟩

/-! ### Patch line structure (claim C5) -/

/-- The patch lines of a parsed file, in order: for each hunk its header,
then each of its prefixed change lines. -/
def fileLines (f : File) : List String :=
  f.chunks.flatMap (fun c => headerStr c :: c.changes.map pfxLine)

/-- Split a character list at newlines. -/
def linesOfData : List Char → List (List Char)
  | [] => [[]]
  | c :: cs =>
    if c = '\n' then [] :: linesOfData cs
    else
      match linesOfData cs with
      | [] => [[c]]
      | l :: ls => (c :: l) :: ls

/-- The lines of a string. -/
def linesOf (s : String) : List String := (linesOfData s.data).map String.mk

/-- Does a line carry an added or removed change (it starts with `+`/`-`)? -/
def pmLine (s : String) : Bool :=
  match s.data with
  | [] => false
  | c :: _ => c == '+' || c == '-'

/-- The added/removed lines of a patch string. -/
def pmLinesOf (s : String) : List String := (linesOf s).filter pmLine

/-- The added/removed change lines of a parsed file's hunks, prefixed. -/
def pmChangeLines (f : File) : List String :=
  (f.chunks.flatMap (fun c =>
    c.changes.filter (fun ch => decide (ch.type ≠ ChangeType.normal)))).map pfxLine

/-- Interleave lines with newlines (no trailing newline). -/
def sepNl : List (List Char) → List Char
  | [] => []
  | [l] => l
  | l :: l2 :: rest => l ++ '\n' :: sepNl (l2 :: rest)

/-- A change line is clean when it is nonempty, newline-free, and does not
end in whitespace (so the final `trim` of the merged patch only strips the
trailing newline). -/
def cleanLine (s : String) : Bool :=
  !s.data.isEmpty && decide ('\n' ∉ s.data) && s.data.getLast?.all (fun c => !c.isWhitespace)

theorem foldl_changes_data (chs : List Change) : ∀ acc : String,
    (chs.foldl (fun a2 ch => a2 ++ pfxLine ch ++ "\n") acc).data =
      acc.data ++ ((chs.map pfxLine).map (fun l => l.data ++ ['\n'])).flatten := by
  induction chs with
  | nil => intro acc; simp
  | cons ch rest ih =>
    intro acc
    rw [List.foldl_cons, ih]
    simp [String.data_append, List.append_assoc]

theorem filePatchRaw_data (f : File) :
    (filePatchRaw f).data = ((fileLines f).map (fun l => l.data ++ ['\n'])).flatten := by
  unfold filePatchRaw fileLines
  have main : ∀ (hunks : List Hunk) (acc : String),
      (hunks.foldl (fun acc c =>
        c.changes.foldl (fun a2 ch => a2 ++ pfxLine ch ++ "\n")
          (acc ++ headerStr c ++ "\n")) acc).data =
      acc.data ++ ((hunks.flatMap (fun c => headerStr c :: c.changes.map pfxLine)).map
        (fun l => l.data ++ ['\n'])).flatten := by
    intro hunks
    induction hunks with
    | nil => intro acc; simp
    | cons c rest ih =>
      intro acc
      rw [List.foldl_cons, ih, foldl_changes_data]
      simp [String.data_append, List.append_assoc]
  rw [main]
  rfl

theorem flatten_nl_eq_sepNl : ∀ ls : List (List Char), ls ≠ [] →
    (ls.map (fun l => l ++ ['\n'])).flatten = sepNl ls ++ ['\n'] := by
  intro ls
  induction ls with
  | nil => intro h; exact absurd rfl h
  | cons l rest ih =>
    intro _
    cases rest with
    | nil => simp [sepNl]
    | cons l2 rest2 =>
      rw [List.map_cons, List.flatten_cons, ih (by simp)]
      show l ++ ['\n'] ++ (sepNl (l2 :: rest2) ++ ['\n']) = sepNl (l :: l2 :: rest2) ++ ['\n']
      rw [show sepNl (l :: l2 :: rest2) = l ++ '\n' :: sepNl (l2 :: rest2) from rfl]
      simp [List.append_assoc]

theorem sepNl_ne_nil {l : List Char} {rest : List (List Char)} (h : l ≠ []) :
    sepNl (l :: rest) ≠ [] := by
  cases rest with
  | nil => exact h
  | cons l2 rest2 =>
    show l ++ '\n' :: sepNl (l2 :: rest2) ≠ []
    simp

theorem sepNl_head? {l : List Char} (rest : List (List Char)) (h : l ≠ []) :
    (sepNl (l :: rest)).head? = l.head? := by
  cases rest with
  | nil => rfl
  | cons l2 rest2 =>
    show (l ++ '\n' :: sepNl (l2 :: rest2)).head? = l.head?
    cases l with
    | nil => exact absurd rfl h
    | cons c cs => rfl

theorem getLast?_cons_of_ne {α : Type} {c : α} {l : List α} (h : l ≠ []) :
    (c :: l).getLast? = l.getLast? := by
  cases l with
  | nil => exact absurd rfl h
  | cons x xs => exact List.getLast?_cons_cons

theorem sepNl_getLast? : ∀ (ls : List (List Char)) (lst : List Char),
    (∀ x ∈ ls, x ≠ []) → ls.getLast? = some lst →
    (sepNl ls).getLast? = lst.getLast? := by
  intro ls
  induction ls with
  | nil => intro lst _ h; simp at h
  | cons l rest ih =>
    intro lst hne hlast
    cases rest with
    | nil =>
      simp at hlast
      rw [hlast]
      rfl
    | cons l2 rest2 =>
      rw [List.getLast?_cons_cons] at hlast
      show (l ++ '\n' :: sepNl (l2 :: rest2)).getLast? = lst.getLast?
      have h2 : sepNl (l2 :: rest2) ≠ [] :=
        sepNl_ne_nil (hne l2 (List.mem_cons_of_mem _ (List.mem_cons_self _ _)))
      rw [List.getLast?_append, getLast?_cons_of_ne h2,
        ih lst (fun x hx => hne x (List.mem_cons_of_mem _ hx)) hlast]
      cases hl : lst.getLast? with
      | none =>
        exfalso
        have hlmem : lst ∈ l2 :: rest2 := List.mem_of_getLast?_eq_some hlast
        have hne2 : lst ≠ [] := hne lst (List.mem_cons_of_mem _ hlmem)
        rcases List.exists_cons_of_ne_nil hne2 with ⟨y, ys, rfl⟩
        simp at hl
      | some c => rfl

theorem dropWhile_head_false {α : Type} (p : α → Bool) (l : List α)
    (h : ∀ a, l.head? = some a → p a = false) : l.dropWhile p = l := by
  cases l with
  | nil => rfl
  | cons a l2 =>
    rw [List.dropWhile_cons, h a rfl]
    simp

theorem trimData_append_nl (X : List Char) (hne : X ≠ [])
    (hhead : ∀ c, X.head? = some c → c.isWhitespace = false)
    (hlast : ∀ c, X.getLast? = some c → c.isWhitespace = false) :
    trimData (X ++ ['\n']) = X := by
  rcases List.exists_cons_of_ne_nil hne with ⟨c, cs, rfl⟩
  unfold trimData
  have h1 : ((c :: cs) ++ ['\n']).dropWhile Char.isWhitespace = (c :: cs) ++ ['\n'] := by
    rw [List.cons_append, List.dropWhile_cons, hhead c rfl]
    simp
  rw [h1]
  have h2 : ((c :: cs) ++ ['\n']).reverse = '\n' :: (c :: cs).reverse := by simp
  rw [h2, List.dropWhile_cons]
  rw [show ('\n'.isWhitespace) = true from by decide]
  rw [if_pos rfl]
  rw [dropWhile_head_false _ _ (fun a ha => hlast a (by rwa [List.head?_reverse] at ha)),
    List.reverse_reverse]

theorem linesOfData_no_nl : ∀ (l : List Char), '\n' ∉ l → linesOfData l = [l] := by
  intro l
  induction l with
  | nil => intro _; rfl
  | cons c cs ih =>
    intro h
    have hc : ¬ (c = '\n') := fun hcc => h (hcc ▸ List.mem_cons_self _ _)
    simp only [linesOfData]
    rw [if_neg hc, ih (fun hm => h (List.mem_cons_of_mem _ hm))]

theorem linesOfData_append : ∀ (l t : List Char), '\n' ∉ l →
    linesOfData (l ++ '\n' :: t) = l :: linesOfData t := by
  intro l
  induction l with
  | nil =>
    intro t _
    rw [List.nil_append]
    simp [linesOfData]
  | cons c cs ih =>
    intro t h
    have hc : ¬ (c = '\n') := fun hcc => h (hcc ▸ List.mem_cons_self _ _)
    rw [List.cons_append]
    simp only [linesOfData]
    rw [if_neg hc, ih t (fun hm => h (List.mem_cons_of_mem _ hm))]

theorem linesOfData_sepNl : ∀ ls : List (List Char), ls ≠ [] →
    (∀ l ∈ ls, '\n' ∉ l) → linesOfData (sepNl ls) = ls := by
  intro ls
  induction ls with
  | nil => intro h; exact absurd rfl h
  | cons l rest ih =>
    intro _ hnl
    cases rest with
    | nil =>
      show linesOfData l = [l]
      exact linesOfData_no_nl l (hnl l (List.mem_cons_self _ _))
    | cons l2 rest2 =>
      show linesOfData (l ++ '\n' :: sepNl (l2 :: rest2)) = l :: l2 :: rest2
      rw [linesOfData_append l _ (hnl l (List.mem_cons_self _ _)),
        ih (by simp) (fun x hx => hnl x (List.mem_cons_of_mem _ hx))]

theorem repr_all_digits (n : Nat) : ∀ c ∈ (Nat.repr n).data, c.isDigit = true := by
  intro c hc
  rw [repr_data] at hc
  exact toDigitsCore_digits (n + 1) n [] (by simp) c hc

theorem repr_no_nl (n : Nat) : '\n' ∉ (Nat.repr n).data := by
  intro hmem
  have := repr_all_digits n '\n' hmem
  simp at this

theorem headerStr_data (c : Hunk) : (headerStr c).data =
    ['@', '@', ' ', '-'] ++ (Nat.repr c.oldStart).data ++ [','] ++
      (Nat.repr c.oldLines).data ++ [' ', '+'] ++ (Nat.repr c.newStart).data ++
      [','] ++ (Nat.repr c.newLines).data ++ [' ', '@', '@'] := by
  simp only [headerStr, String.data_append]

theorem headerStr_ne_nil (c : Hunk) : (headerStr c).data ≠ [] := by
  rw [headerStr_data]
  simp

theorem headerStr_head (c : Hunk) : (headerStr c).data.head? = some '@' := by
  rw [headerStr_data]
  rfl

theorem headerStr_last (c : Hunk) : (headerStr c).data.getLast? = some '@' := by
  have glast : ∀ l : List Char, (l ++ [' ', '@', '@']).getLast? = some '@' := by
    intro l
    rw [show (([' ', '@', '@'] : List Char)) = [' ', '@'] ++ ['@'] from rfl,
      ← List.append_assoc]
    exact List.getLast?_concat _
  rw [headerStr_data]
  exact glast _

theorem headerStr_no_nl (c : Hunk) : '\n' ∉ (headerStr c).data := by
  rw [headerStr_data]
  intro hmem
  simp only [List.mem_append, List.mem_cons, List.not_mem_nil] at hmem
  rcases hmem with ((((((((h | h) | h) | h) | h) | h) | h) | h) | h) <;>
    first
      | simp at h
      | exact absurd (repr_all_digits _ '\n' h) (by decide)

theorem changePfx_data (t : ChangeType) :
    (changePfx t).data = [(match t with | ChangeType.add => '+' | ChangeType.del => '-' | ChangeType.normal => ' ')] := by
  cases t <;> rfl

theorem pfxLine_data (ch : Change) : (pfxLine ch).data =
    (match ch.type with | ChangeType.add => '+' | ChangeType.del => '-' | ChangeType.normal => ' ') :: ch.content.data := by
  show ((changePfx ch.type ++ ch.content).data) = _
  rw [String.data_append, changePfx_data]
  rfl

theorem cleanLine_spec {s : String} (h : cleanLine s = true) :
    s.data ≠ [] ∧ '\n' ∉ s.data ∧ ∀ c, s.data.getLast? = some c → c.isWhitespace = false := by
  unfold cleanLine at h
  simp only [Bool.and_eq_true, Bool.not_eq_true'] at h
  obtain ⟨⟨h1, h2⟩, h3⟩ := h
  refine ⟨by simpa [List.isEmpty_iff] using h1, of_decide_eq_true h2, ?_⟩
  intro c hc
  rw [hc] at h3
  simpa using h3

theorem fileLines_mem_facts (f : File)
    (hclean : ∀ c ∈ f.chunks, ∀ ch ∈ c.changes, cleanLine ch.content = true) :
    ∀ s ∈ fileLines f, s.data ≠ [] ∧ '\n' ∉ s.data ∧
      ∀ x, s.data.getLast? = some x → x.isWhitespace = false := by
  intro s hs
  rcases List.mem_flatMap.1 hs with ⟨c, hc, hsc⟩
  rcases List.mem_cons.1 hsc with rfl | hsc
  · refine ⟨headerStr_ne_nil c, headerStr_no_nl c, ?_⟩
    intro x hx
    rw [headerStr_last c] at hx
    cases hx
    decide
  · rcases List.mem_map.1 hsc with ⟨ch, hch, rfl⟩
    obtain ⟨hc1, hc2, hc3⟩ := cleanLine_spec (hclean c hc ch hch)
    refine ⟨by simp [pfxLine_data], ?_, ?_⟩
    · rw [pfxLine_data]
      intro hmem
      rcases List.mem_cons.1 hmem with h | h
      · have hpf : (match ch.type with
            | ChangeType.add => '+' | ChangeType.del => '-' | ChangeType.normal => ' ') ≠ '\n' := by
          cases ch.type <;> decide
        exact hpf h.symm
      · exact hc2 h
    · intro x hx
      rw [pfxLine_data, getLast?_cons_of_ne hc1] at hx
      exact hc3 x hx

theorem linesOf_trim_filePatch (f : File) (hne : f.chunks ≠ [])
    (hclean : ∀ c ∈ f.chunks, ∀ ch ∈ c.changes, cleanLine ch.content = true) :
    linesOf (trimJS (filePatchRaw f)) = fileLines f := by
  have hfacts := fileLines_mem_facts f hclean
  rcases List.exists_cons_of_ne_nil hne with ⟨c0, cs, hch⟩
  have hlines : fileLines f = headerStr c0 ::
      (c0.changes.map pfxLine ++ cs.flatMap (fun c => headerStr c :: c.changes.map pfxLine)) := by
    rw [fileLines, hch, List.flatMap_cons, List.cons_append]
  set ld := (fileLines f).map String.data with hld
  have hld_first : ld = (headerStr c0).data ::
      ((c0.changes.map pfxLine ++ cs.flatMap (fun c => headerStr c :: c.changes.map pfxLine)).map String.data) := by
    rw [hld, hlines, List.map_cons]
  have hld_ne : ld ≠ [] := by rw [hld_first]; simp
  have hmemfacts : ∀ l ∈ ld, l ≠ [] ∧ '\n' ∉ l ∧
      ∀ x, l.getLast? = some x → x.isWhitespace = false := by
    intro l hl
    rcases List.mem_map.1 hl with ⟨s, hs, rfl⟩
    exact hfacts s hs
  have hdata : (trimJS (filePatchRaw f)).data = sepNl ld := by
    show trimData (filePatchRaw f).data = sepNl ld
    rw [filePatchRaw_data]
    have hmm : (fileLines f).map (fun l => l.data ++ ['\n']) = ld.map (fun l => l ++ ['\n']) := by
      rw [hld, List.map_map]
      rfl
    rw [hmm, flatten_nl_eq_sepNl ld hld_ne]
    have hd0 : (headerStr c0).data ≠ [] := headerStr_ne_nil c0
    apply trimData_append_nl
    · rw [hld_first]
      exact sepNl_ne_nil hd0
    · intro x hx
      rw [hld_first, sepNl_head? _ hd0, headerStr_head c0] at hx
      cases hx
      decide
    · intro x hx
      have hsome : ∃ lst, ld.getLast? = some lst := by
        have := List.getLast?_isSome.2 hld_ne
        exact Option.isSome_iff_exists.1 this
      rcases hsome with ⟨lst, hlst⟩
      rw [sepNl_getLast? ld lst (fun y hy => (hmemfacts y hy).1) hlst] at hx
      exact (hmemfacts lst (List.mem_of_getLast?_eq_some hlst)).2.2 x hx
  show (linesOfData (trimJS (filePatchRaw f)).data).map String.mk = fileLines f
  rw [hdata, linesOfData_sepNl ld hld_ne (fun l hl => (hmemfacts l hl).2.1), hld,
    List.map_map]
  have : (String.mk ∘ String.data) = id := funext fun s => rfl
  rw [this, List.map_id]

theorem pmLine_pfxLine (ch : Change) :
    pmLine (pfxLine ch) = decide (ch.type ≠ ChangeType.normal) := by
  cases htt : ch.type <;> simp [pmLine, pfxLine_data, htt]

theorem pmLine_headerStr (c : Hunk) : pmLine (headerStr c) = false := by
  simp [pmLine, headerStr_data]

theorem fileLines_filter_pm (f : File) :
    (fileLines f).filter pmLine = pmChangeLines f := by
  unfold fileLines pmChangeLines
  induction f.chunks with
  | nil => rfl
  | cons c rest ih =>
    rw [List.flatMap_cons, List.flatMap_cons, List.filter_append, ih, List.map_append]
    congr 1
    rw [List.filter_cons, pmLine_headerStr]
    simp only [Bool.false_eq_true, if_false]
    rw [List.filter_map]
    congr 1
    apply List.filter_congr
    intro ch _
    exact pmLine_pfxLine ch

theorem merge_patches : ∀ (files : List File) (st : (String → Nat) × List DiffChunk),
    ((files.foldl mergeStep st).2).map (fun c => c.patch) =
      st.2.map (fun c => c.patch) ++
        (files.filter (fun f => !f.chunks.isEmpty)).map (fun f => some (trimJS (filePatchRaw f))) := by
  intro files
  induction files with
  | nil => intro st; simp
  | cons f rest ih =>
    intro st
    rw [List.foldl_cons]
    by_cases hf : f.chunks = []
    · have hstep : mergeStep st f = st := by
        unfold mergeStep
        rw [if_pos hf]
      have hq : (!f.chunks.isEmpty) = false := by simp [hf]
      rw [hstep, ih, List.filter_cons, hq]
      simp
    · have hq : (!f.chunks.isEmpty) = true := by simp [List.isEmpty_iff, hf]
      have hstep : (mergeStep st f).2 = st.2 ++
          [{ id := fileName f ++ "-" ++ Nat.repr (st.1 (fileName f) + 1),
             content := trimJS (fileContentRaw f),
             filename := fileName f,
             patch := some (trimJS (filePatchRaw f)) }] := by
        unfold mergeStep
        rw [if_neg hf]
      rw [ih, List.filter_cons, hq]
      simp only [if_true, List.map_cons]
      rw [hstep]
      simp [List.append_assoc]

/-- A `parse-diff` entry for a binary file: it has no hunks. -/
def binFileW : File := { «to» := some "image.png", «from» := some "image.png", chunks := [] }

/-- Counterexample to claim C5 as stated: a binary-file marker (a parsed file
with no hunks) yields NO merged chunk at all — not a chunk with empty
content — so the chunk count (0) differs from the number of distinct files
touched (1). -/
theorem mergeDiffChunks_drops_binary :
    mergeDiffChunks [binFileW] = [] ∧ (mergeDiffChunks [binFileW]).length ≠ [binFileW].length :=
  ⟨rfl, by decide⟩

theorem flatMap_congr {α β : Type} {g₁ g₂ : α → List β} :
    ∀ l : List α, (∀ x ∈ l, g₁ x = g₂ x) → l.flatMap g₁ = l.flatMap g₂ := by
  intro l
  induction l with
  | nil => intro _; rfl
  | cons x rest ih =>
    intro h
    rw [List.flatMap_cons, List.flatMap_cons, h x (List.mem_cons_self _ _),
      ih (fun y hy => h y (List.mem_cons_of_mem _ hy))]

theorem flatMap_filter_of_nil {α β : Type} (q : α → Bool) (g : α → List β) :
    ∀ l : List α, (∀ x ∈ l, q x = false → g x = []) →
      (l.filter q).flatMap g = l.flatMap g := by
  intro l
  induction l with
  | nil => intro _; rfl
  | cons x rest ih =>
    intro h
    rw [List.filter_cons, List.flatMap_cons]
    by_cases hx : q x = true
    · rw [if_pos hx, List.flatMap_cons, ih (fun y hy => h y (List.mem_cons_of_mem _ hy))]
    · have hxf : q x = false := by
        revert hx
        cases q x <;> simp
      rw [if_neg hx, ih (fun y hy => h y (List.mem_cons_of_mem _ hy)),
        h x (List.mem_cons_self _ _) hxf]
      simp

/-- Claim C5 (amended): `mergeDiffChunks` produces exactly one merged chunk
per parsed file that has at least one hunk (binary/empty entries are
skipped), and — provided change lines are nonempty, newline-free and do not
end in whitespace, so that the final `trim` only strips the trailing
newline — the `+`/`-` lines of the produced `patch` fields are exactly the
added and removed lines of the original hunks, in order, none dropped and
none duplicated. -/
theorem mergeDiffChunks_preserves_patch_lines (files : List File)
    (hclean : ∀ f ∈ files, ∀ c ∈ f.chunks, ∀ ch ∈ c.changes, cleanLine ch.content = true) :
    (mergeDiffChunks files).length = (files.filter (fun f => !f.chunks.isEmpty)).length ∧
    (mergeDiffChunks files).flatMap (fun c => pmLinesOf (c.patch.getD "")) =
      files.flatMap pmChangeLines := by
  have h1 := merge_patches files ((fun _ => 0 : String → Nat), ([] : List DiffChunk))
  rw [show ((((fun _ => 0 : String → Nat), ([] : List DiffChunk))).2.map (fun c => c.patch)) = [] from rfl,
    List.nil_append] at h1
  constructor
  · have := congrArg List.length h1
    simpa [List.length_map] using this
  · have h2 : (mergeDiffChunks files).flatMap (fun c => pmLinesOf (c.patch.getD "")) =
        ((mergeDiffChunks files).map (fun c => c.patch)).flatMap (fun p => pmLinesOf (p.getD "")) := by
      rw [List.flatMap_map]
    rw [h2, show (mergeDiffChunks files).map (fun c => c.patch) =
        ((files.foldl mergeStep ((fun _ => 0 : String → Nat), ([] : List DiffChunk))).2).map (fun c => c.patch) from rfl,
      h1, List.flatMap_map]
    have h3 : (files.filter (fun f => !f.chunks.isEmpty)).flatMap
        (fun f => pmLinesOf ((some (trimJS (filePatchRaw f))).getD "")) =
        (files.filter (fun f => !f.chunks.isEmpty)).flatMap pmChangeLines := by
      apply flatMap_congr
      intro f hf
      obtain ⟨hfm, hfq⟩ := List.mem_filter.1 hf
      have hfc : f.chunks ≠ [] := by simpa [List.isEmpty_iff] using hfq
      show pmLinesOf (trimJS (filePatchRaw f)) = pmChangeLines f
      unfold pmLinesOf
      rw [linesOf_trim_filePatch f hfc (hclean f hfm), fileLines_filter_pm]
    rw [h3]
    apply flatMap_filter_of_nil
    intro f _ hq
    have : f.chunks = [] := by simpa [List.isEmpty_iff] using hq
    unfold pmChangeLines
    rw [this]
    rfl

/-- A parsed file mirroring the repository's own diff-tool test input. -/
def fileW : File :=
  { «to» := some "src/file.ts", «from» := some "src/file.ts",
    chunks := [{ oldStart := 1, oldLines := 3, newStart := 1, newLines := 3,
                 changes := [⟨ChangeType.del, "-const x = 1;"⟩,
                             ⟨ChangeType.add, "+const x = 2;"⟩,
                             ⟨ChangeType.normal, " const y = 2;"⟩] }] }

/-- Witness for claim C5 (amended) on the repository's test diff. -/
theorem mergeDiffChunks_preserves_patch_lines_witness :
    (∀ f ∈ [fileW], ∀ c ∈ f.chunks, ∀ ch ∈ c.changes, cleanLine ch.content = true) ∧
    ((mergeDiffChunks [fileW]).length = ([fileW].filter (fun f => !f.chunks.isEmpty)).length ∧
     (mergeDiffChunks [fileW]).flatMap (fun c => pmLinesOf (c.patch.getD "")) =
       [fileW].flatMap pmChangeLines) :=
  ⟨by decide, mergeDiffChunks_preserves_patch_lines [fileW] (by decide)⟩

/-! ## Schema-validated tool registry (`src/lib/toolHandler.ts`) -/

/-- A JSON-like value: tool parameters and results are JS values, which the
source serialises with `JSON.stringify` when building result contents; the
embedding keeps them structured. -/
inductive Json
  | null
  | bool (b : Bool)
  | num (n : Int)
  | str (s : String)
  | arr (xs : List Json)
  | obj (fields : List (String × Json))

/-- A registered tool.  `zod`'s `schema.parse` either returns the validated
arguments or throws a validation error, and the execution function either
returns a result or throws; both are modelled as `Except`, with the thrown
error's message. -/
structure MTool where
  name : String
  description : String
  parse : Json → Except String Json
  execute : Json → Except String Json

structure ToolCall where
  tool_name : String
  parameters : Json

/-- `this.tools[toolCall.tool_name]` (the registry object keyed by name). -/
def lookupTool (tools : List MTool) (name : String) : Option MTool :=
  tools.find? (fun t => t.name == name)

/-- The structured error payload `JSON.stringify({ error: message })`. -/
def errPayload (msg : String) : Json := Json.obj [("error", Json.str msg)]

structure ToolResult where
  name : String
  content : Json

/-- Dispatch of one tool call, as in the body of `handleToolCalls`'s
`try`/`catch`: an absent tool yields the \"Tool '<name>' not found\" error
payload, a failing validation yields the validation error's payload, a
throwing execution function yields its error payload, and a successful
execution yields the (stringified) result.  The second component is the
execution trace: which `execute` function actually ran, with which
validated parameters. -/
def dispatchCall (tools : List MTool) (tc : ToolCall) : ToolResult × List (String × Json) :=
  match lookupTool tools tc.tool_name with
  | none => (⟨tc.tool_name, errPayload ("Tool '" ++ tc.tool_name ++ "' not found")⟩, [])
  | some tool =>
    match tool.parse tc.parameters with
    | Except.error e => (⟨tc.tool_name, errPayload e⟩, [])
    | Except.ok params =>
      match tool.execute params with
      | Except.error e => (⟨tc.tool_name, errPayload e⟩, [(tc.tool_name, params)])
      | Except.ok v => (⟨tc.tool_name, v⟩, [(tc.tool_name, params)])

/-- `handleToolCalls` from `src/lib/toolHandler.ts` (lines 30-60): one result
per call, errors captured per call, never aborting the list. -/
def handleToolCalls (tools : List MTool) (calls : List ToolCall) : List ToolResult :=
  calls.map (fun tc => (dispatchCall tools tc).1)

/-- Claim C6: `handleToolCalls` never propagates an exception (it is a total
function into one result per call): the result list has one entry per call
with the call's tool name; a call naming an unregistered tool yields the
payload `Tool '<name>' not found`; arguments failing schema validation yield
the validation error's payload; and a throwing execution function yields its
error payload rather than aborting the run. -/
theorem handleToolCalls_one_result_per_call (tools : List MTool) (calls : List ToolCall) :
    (handleToolCalls tools calls).length = calls.length ∧
    ∀ (i : Nat) (hi : i < calls.length) (hri : i < (handleToolCalls tools calls).length),
      ((handleToolCalls tools calls)[i]).name = (calls[i]).tool_name ∧
      (lookupTool tools ((calls[i]).tool_name) = none →
        ((handleToolCalls tools calls)[i]).content =
          errPayload ("Tool '" ++ (calls[i]).tool_name ++ "' not found")) ∧
      (∀ tool e, lookupTool tools ((calls[i]).tool_name) = some tool →
        tool.parse ((calls[i]).parameters) = Except.error e →
        ((handleToolCalls tools calls)[i]).content = errPayload e) ∧
      (∀ tool p e, lookupTool tools ((calls[i]).tool_name) = some tool →
        tool.parse ((calls[i]).parameters) = Except.ok p →
        tool.execute p = Except.error e →
        ((handleToolCalls tools calls)[i]).content = errPayload e) ∧
      (∀ tool p v, lookupTool tools ((calls[i]).tool_name) = some tool →
        tool.parse ((calls[i]).parameters) = Except.ok p →
        tool.execute p = Except.ok v →
        ((handleToolCalls tools calls)[i]).content = v) := by
  refine ⟨by simp [handleToolCalls], ?_⟩
  intro i hi hri
  have hget : (handleToolCalls tools calls)[i] = (dispatchCall tools (calls[i])).1 := by
    simp [handleToolCalls]
  refine ⟨?_, ?_, ?_, ?_, ?_⟩
  · rw [hget]
    cases hl : lookupTool tools ((calls[i]).tool_name) with
    | none => simp [dispatchCall, hl]
    | some tool =>
      cases hp : tool.parse ((calls[i]).parameters) with
      | error e => simp [dispatchCall, hl, hp]
      | ok p =>
        cases he : tool.execute p with
        | error e => simp [dispatchCall, hl, hp, he]
        | ok v => simp [dispatchCall, hl, hp, he]
  · intro hl
    rw [hget]
    simp [dispatchCall, hl]
  · intro tool e hl hp
    rw [hget]
    simp [dispatchCall, hl, hp]
  · intro tool p e hl hp he
    rw [hget]
    simp [dispatchCall, hl, hp, he]
  · intro tool p v hl hp he
    rw [hget]
    simp [dispatchCall, hl, hp, he]

/-- A tool that echoes its validated input. -/
def tEcho : MTool :=
  { name := "t", description := "echo",
    parse := fun j => Except.ok j, execute := fun j => Except.ok j }

/-- A tool whose execution function throws. -/
def tBoom : MTool :=
  { name := "boom", description := "always throws",
    parse := fun j => Except.ok j, execute := fun _ => Except.error "kaboom" }

/-- The calls exercised by the C6 witness: one to an unregistered tool, one
to a throwing tool. -/
def callsW : List ToolCall := [⟨"zap", Json.null⟩, ⟨"boom", Json.null⟩]

/-- Witness for claim C6: a call to an unregistered tool and a call to a
throwing tool both produce structured error results, one result per call. -/
theorem handleToolCalls_one_result_per_call_witness :
    (handleToolCalls [tEcho, tBoom] callsW).length = callsW.length ∧
    ((handleToolCalls [tEcho, tBoom] callsW).get ⟨0, by decide⟩).content =
      errPayload "Tool 'zap' not found" ∧
    ((handleToolCalls [tEcho, tBoom] callsW).get ⟨1, by decide⟩).content =
      errPayload "kaboom" := by
  refine ⟨(handleToolCalls_one_result_per_call [tEcho, tBoom] callsW).1, ?_, ?_⟩
  · exact ((handleToolCalls_one_result_per_call [tEcho, tBoom] callsW).2 0
      (by decide) (by decide)).2.1 rfl
  · exact ((handleToolCalls_one_result_per_call [tEcho, tBoom] callsW).2 1
      (by decide) (by decide)).2.2.2.1 tBoom Json.null "kaboom" rfl rfl rfl

/-! ## Conversational tool-execution loop (`src/lib/llmClient.ts`)

`runWithTools` drives the engine until a response without tool-use blocks
arrives.  The external engine is modelled as a script: the list of
successive responses `messages.create` returns.  Each response is a list of
content blocks. -/

inductive Role
  | user
  | assistant
deriving DecidableEq, Repr

/-- A content block (engine responses carry `text` and `tool_use` blocks;
tool-result submissions carry `tool_result` blocks). -/
inductive Block
  | text (t : String)
  | toolUse (id : String) (name : String) (input : Json)
  | toolResult (toolUseId : String) (content : Json)

/-- A transcript message: role plus either a plain string or content
blocks. -/
structure Msg where
  role : Role
  content : Sum String (List Block)

/-- `response.content.find(block => block.type === 'tool_use')`. -/
def firstToolUse : List Block → Option (String × String × Json)
  | [] => none
  | Block.toolUse id name input :: _ => some (id, name, input)
  | _ :: rest => firstToolUse rest

/-- `response.content.find(block => block.type === 'text')`. -/
def firstText : List Block → Option String
  | [] => none
  | Block.text t :: _ => some t
  | _ :: rest => firstText rest

/-- Result of a loop run: the final answer (`none` when the script was
exhausted while the loop still awaited an engine response), the transcript
(`messages`), and the execution trace of tool `execute` calls. -/
structure RunResult where
  finalText : Option String
  transcript : List Msg
  trace : List (String × Json)

/-- The loop body of `runWithTools` (lines 54-126): per response, only the
FIRST tool-use block is dispatched ("We currently only handle one tool call
at a time"), through the shared registry only; the assistant response is
appended, then — when the correlation id is truthy — a single user turn
with the single tool-result block; a response without tool-use blocks ends
the loop with the first text block (or "No text response"), appending
nothing. -/
def runLoop (tools : List MTool) : List (List Block) → List Msg → RunResult
  | [], messages => ⟨none, messages, []⟩
  | response :: rest, messages =>
    match firstToolUse response with
    | some (uid, uname, uinput) =>
      let d := dispatchCall tools ⟨uname, uinput⟩
      let m1 := messages ++ [⟨Role.assistant, Sum.inr response⟩]
      let m2 := if uid ≠ "" then
          m1 ++ [⟨Role.user, Sum.inr [Block.toolResult uid d.1.content]⟩]
        else m1
      let r := runLoop tools rest m2
      ⟨r.finalText, r.transcript, d.2 ++ r.trace⟩
    | none =>
      ⟨some ((firstText response).getD "No text response"), messages, []⟩

/-- `runWithTools(prompt, system, logKey, ...additionalTools)`: seeds the
transcript with the user prompt.  `additionalTools` are NOT registered
anywhere: dispatch goes through the shared registry (`tools`) only; the
additional tools only appear in the offered schema list
(`offeredToolNames`). -/
def runWithTools (tools addl : List MTool) (prompt : String)
    (script : List (List Block)) : RunResult :=
  runLoop tools script [⟨Role.user, Sum.inl prompt⟩]

/-- The tool set offered to the engine on each request:
`this.toolHandler.getToolsSchema().concat(additionalTools.map(getToolSchema))`. -/
def offeredToolNames (tools addl : List MTool) : List String :=
  tools.map (fun t => t.name) ++ addl.map (fun t => t.name)

/-! ### Claim C3: which invocations are executed -/

/-- The executions one processed response contributes: those of its first
tool-use block only. -/
def roundExec (tools : List MTool) (response : List Block) : List (String × Json) :=
  match firstToolUse response with
  | some (_, uname, uinput) => (dispatchCall tools ⟨uname, uinput⟩).2
  | none => []

/-- The transcript messages one processed response contributes: the
assistant turn, then (for a nonempty correlation id) one user turn holding
the single result block tagged with the FIRST invocation's id. -/
def roundMsgs (tools : List MTool) (response : List Block) : List Msg :=
  match firstToolUse response with
  | some (uid, uname, uinput) =>
    ⟨Role.assistant, Sum.inr response⟩ ::
      (if uid ≠ "" then
        [⟨Role.user, Sum.inr [Block.toolResult uid (dispatchCall tools ⟨uname, uinput⟩).1.content]⟩]
      else [])
  | none => []

/-- The prefix of the script the loop processes as tool rounds. -/
def toolRounds (script : List (List Block)) : List (List Block) :=
  script.takeWhile (fun r => (firstToolUse r).isSome)

theorem runLoop_characterization (tools : List MTool) :
    ∀ (script : List (List Block)) (messages : List Msg),
      (runLoop tools script messages).trace =
        (toolRounds script).flatMap (roundExec tools) ∧
      (runLoop tools script messages).transcript =
        messages ++ (toolRounds script).flatMap (roundMsgs tools) := by
  intro script
  induction script with
  | nil => intro messages; exact ⟨rfl, by simp [runLoop, toolRounds]⟩
  | cons response rest ih =>
    intro messages
    cases hfu : firstToolUse response with
    | none =>
      have ht : toolRounds (response :: rest) = [] := by
        unfold toolRounds
        rw [List.takeWhile_cons, hfu]
        rfl
      constructor
      · show (runLoop tools (response :: rest) messages).trace = _
        rw [ht]
        simp only [runLoop, hfu, List.flatMap_nil]
      · show (runLoop tools (response :: rest) messages).transcript = _
        rw [ht]
        simp only [runLoop, hfu, List.flatMap_nil, List.append_nil]
    | some tup =>
      obtain ⟨uid, uname, uinput⟩ := tup
      have ht : toolRounds (response :: rest) = response :: toolRounds rest := by
        unfold toolRounds
        rw [List.takeWhile_cons, hfu]
        rfl
      have hmsgs : roundMsgs tools response =
          ⟨Role.assistant, Sum.inr response⟩ ::
            (if uid ≠ "" then
              [⟨Role.user, Sum.inr [Block.toolResult uid
                (dispatchCall tools ⟨uname, uinput⟩).1.content]⟩]
            else []) := by
        unfold roundMsgs
        rw [hfu]
      have hexec : roundExec tools response = (dispatchCall tools ⟨uname, uinput⟩).2 := by
        unfold roundExec
        rw [hfu]
      set m2 := (if uid ≠ "" then
          (messages ++ [⟨Role.assistant, Sum.inr response⟩]) ++
            [⟨Role.user, Sum.inr [Block.toolResult uid
              (dispatchCall tools ⟨uname, uinput⟩).1.content]⟩]
        else messages ++ [⟨Role.assistant, Sum.inr response⟩]) with hm2
    -- the loop on `response :: rest` recurses on `rest` with transcript `m2`
      have hrun : runLoop tools (response :: rest) messages =
          ⟨(runLoop tools rest m2).finalText, (runLoop tools rest m2).transcript,
            (dispatchCall tools ⟨uname, uinput⟩).2 ++ (runLoop tools rest m2).trace⟩ := by
        simp only [runLoop, hfu, hm2]
      obtain ⟨ih1, ih2⟩ := ih m2
      constructor
      · rw [hrun]
        show (dispatchCall tools ⟨uname, uinput⟩).2 ++ (runLoop tools rest m2).trace = _
        rw [ih1, ht, List.flatMap_cons, hexec]
      · rw [hrun]
        show (runLoop tools rest m2).transcript = _
        rw [ih2, ht, List.flatMap_cons, hmsgs]
        rw [hm2]
        by_cases hid : uid ≠ ""
        · rw [if_pos hid, if_pos hid]
          simp [List.append_assoc]
        · rw [if_neg hid, if_neg hid]
          simp [List.append_assoc]

/-- Claim C3 (amended): in each round of `runWithTools`, exactly the FIRST
tool-invocation block of the engine response is dispatched (its `execute`
runs at most once, and exactly once when lookup and validation succeed), and
exactly one result block — tagged with THAT invocation's correlation id — is
appended in its own user turn right after the engine turn (omitted when the
correlation id is the empty string); the remaining invocation blocks of the
response are never executed and get no result blocks. -/
theorem runWithTools_executes_first_invocation_only (tools addl : List MTool)
    (prompt : String) (script : List (List Block)) :
    (runWithTools tools addl prompt script).trace =
      (toolRounds script).flatMap (roundExec tools) ∧
    (runWithTools tools addl prompt script).transcript =
      ⟨Role.user, Sum.inl prompt⟩ :: (toolRounds script).flatMap (roundMsgs tools) := by
  obtain ⟨h1, h2⟩ := runLoop_characterization tools script [⟨Role.user, Sum.inl prompt⟩]
  exact ⟨h1, by rw [show runWithTools tools addl prompt script =
    runLoop tools script [⟨Role.user, Sum.inl prompt⟩] from rfl, h2]; rfl⟩

/-- Counterexample to claim C3 as stated: a response with TWO tool-use
blocks leads to only ONE execution (the first), not one per invocation. -/
theorem runWithTools_drops_second_invocation :
    (runWithTools [tEcho] [] "p"
      [[Block.toolUse "id1" "t" (Json.str "a"), Block.toolUse "id2" "t" (Json.str "b")],
       [Block.text "done"]]).trace = [("t", Json.str "a")] ∧
    (runWithTools [tEcho] [] "p"
      [[Block.toolUse "id1" "t" (Json.str "a"), Block.toolUse "id2" "t" (Json.str "b")],
       [Block.text "done"]]).trace.length = 1 :=
  ⟨rfl, rfl⟩

/-! ### Claim C4: scoped tools are never registered -/

/-- An additional (scoped) tool used by the counterexample and witness. -/
def tExtra : MTool :=
  { name := "extra", description := "scoped tool",
    parse := fun j => Except.ok j, execute := fun j => Except.ok j }

/-- Claim C4 (amended): additional tools passed to a call are included in
the tool set offered to the engine for that call and are absent from the
set offered to a call without them, and the shared registry is never
touched: no registration happens at all, so an engine invocation of an
additional tool that is not also in the shared registry is dispatched as
\"Tool '<name>' not found\" and its execution function never runs — even
within the very call that passed it. -/
theorem runWithTools_never_registers_scoped_tools (tools addl : List MTool) :
    (∀ t ∈ addl, t.name ∈ offeredToolNames tools addl) ∧
    (∀ t ∈ addl, t.name ∉ tools.map (fun x => x.name) →
      t.name ∉ offeredToolNames tools []) ∧
    (∀ t ∈ addl, t.name ∉ tools.map (fun x => x.name) →
      ∀ input, (dispatchCall tools ⟨t.name, input⟩).1.content =
          errPayload ("Tool '" ++ t.name ++ "' not found") ∧
        (dispatchCall tools ⟨t.name, input⟩).2 = []) := by
  have hlook : ∀ t : MTool, t.name ∉ tools.map (fun x => x.name) →
      lookupTool tools t.name = none := by
    intro t ht
    rw [lookupTool, List.find?_eq_none]
    intro x hx
    simp only [beq_iff_eq]
    intro heq
    exact ht (List.mem_map.2 ⟨x, hx, heq⟩)
  refine ⟨?_, ?_, ?_⟩
  · intro t ht
    exact List.mem_append_right _ (List.mem_map.2 ⟨t, ht, rfl⟩)
  · intro t _ ht
    intro hmem
    rcases List.mem_append.1 hmem with h | h
    · exact ht h
    · simp at h
  · intro t _ ht input
    constructor
    · rw [dispatchCall]
      rw [hlook t ht]
    · rw [dispatchCall]
      rw [hlook t ht]

/-- Counterexample to claim C4 as stated: the scoped tool is offered to the
engine but never registered — when the engine invokes it, the run records a
\"Tool 'extra' not found\" result and the tool's execution function never
runs (empty trace), in the very call that passed the tool. -/
theorem runWithTools_scoped_tool_not_dispatchable :
    (runWithTools [] [tExtra] "p"
      [[Block.toolUse "id9" "extra" Json.null], [Block.text "done"]]).trace = [] ∧
    "extra" ∈ offeredToolNames [] [tExtra] ∧
    (runWithTools [] [tExtra] "p"
      [[Block.toolUse "id9" "extra" Json.null], [Block.text "done"]]).transcript =
      [⟨Role.user, Sum.inl "p"⟩,
       ⟨Role.assistant, Sum.inr [Block.toolUse "id9" "extra" Json.null]⟩,
       ⟨Role.user, Sum.inr [Block.toolResult "id9"
         (errPayload "Tool 'extra' not found")]⟩] :=
  ⟨rfl, by simp [offeredToolNames, tExtra], rfl⟩

/-- Witness for claim C4 (amended), on the scoped tool `tExtra` and an empty
shared registry. -/
theorem runWithTools_never_registers_scoped_tools_witness :
    ("extra" ∈ offeredToolNames [] [tExtra]) ∧
    ("extra" ∉ offeredToolNames [] []) ∧
    ((dispatchCall [] ⟨"extra", Json.null⟩).1.content =
      errPayload ("Tool '" ++ "extra" ++ "' not found") ∧
     (dispatchCall [] ⟨"extra", Json.null⟩).2 = []) := by
  obtain ⟨h1, h2, h3⟩ := runWithTools_never_registers_scoped_tools [] [tExtra]
  exact ⟨h1 tExtra (List.mem_singleton_self _),
    h2 tExtra (List.mem_singleton_self _) (by simp),
    h3 tExtra (List.mem_singleton_self _) (by simp) Json.null⟩

/-! ## Dependency graph builder (`src/index.ts`, `processDiffChunks`)

The builder drives one `runWithTools` call per chunk, offering the single
scoped `report_dependencies` tool.  What the engine does in that call is
abstracted as a `ChunkRun`: the `report_dependencies` invocations it issues
(each mutating the shared graph through the tool's `execute`), and whether
the call threw.  The `processedNodes` list only shapes the prompts and is
not modelled. -/

/-- The parameters of a `report_dependencies` invocation
(`reportDependenciesSchema`). -/
structure RDParams where
  dependencies : List String
  chunkId : String
deriving DecidableEq, Repr

/-- `reportDependenciesTool(graph).execute(params)` (lines 1339-1350):
`graph.dependencies[params.chunkId] = params.dependencies` — the reported
list is stored verbatim, with no filtering against `nodes` and no
self-dependency check. -/
def reportDependenciesExec (deps : List (String × List String)) (p : RDParams) :
    List (String × List String) :=
  recSet deps p.chunkId p.dependencies

/-- The observable behaviour of the engine during one chunk's
`runWithTools` call. -/
structure ChunkRun where
  invocations : List RDParams
  throws : Bool

/-- The `for (const chunk of chunks)` loop of `processDiffChunks`: each
run's invocations update the graph in order; a run that throws additionally
sets the chunk's own entry to `[]` (the `catch` block). -/
def processStep (behavior : Nat → ChunkRun) :
    List DiffChunk → Nat → List (String × List String) → List (String × List String)
  | [], _, acc => acc
  | chunk :: rest, i, acc =>
    let run := behavior i
    let acc2 := run.invocations.foldl reportDependenciesExec acc
    processStep behavior rest (i + 1) (if run.throws then recSet acc2 chunk.id [] else acc2)

/-- `processDiffChunks` (engine path, lines 1227-1326): the graph's nodes
are the chunks; the dependency record accumulates the tool's writes. -/
def processDiffChunks (chunks : List DiffChunk) (behavior : Nat → ChunkRun) :
    DependencyGraph :=
  ⟨chunks, processStep behavior chunks 0 []⟩

theorem recSet_lookup_self {α : Type} : ∀ (l : List (String × α)) (k : String) (v : α),
    recLookup (recSet l k v) k = some v := by
  intro l
  induction l with
  | nil =>
    intro k v
    simp [recSet, recLookup]
  | cons p rest ih =>
    intro k v
    obtain ⟨pk, pv⟩ := p
    simp only [recSet]
    by_cases hk : k = pk
    · rw [if_pos hk]
      simp [recLookup, hk]
    · rw [if_neg hk]
      simp only [recLookup]
      rw [if_neg hk]
      exact ih k v

theorem recSet_lookup_other {α : Type} : ∀ (l : List (String × α)) (k k2 : String) (v : α),
    k ≠ k2 → recLookup (recSet l k2 v) k = recLookup l k := by
  intro l
  induction l with
  | nil =>
    intro k k2 v hne
    simp [recSet, recLookup, hne]
  | cons p rest ih =>
    intro k k2 v hne
    obtain ⟨pk, pv⟩ := p
    simp only [recSet]
    by_cases hk : k2 = pk
    · rw [if_pos hk]
      simp only [recLookup]
      by_cases hkk : k = pk
      · exact absurd (hkk.trans hk.symm) hne
      · rw [if_neg hkk, if_neg hkk]
    · rw [if_neg hk]
      simp only [recLookup]
      by_cases hkk : k = pk
      · rw [if_pos hkk, if_pos hkk]
      · rw [if_neg hkk, if_neg hkk]
        exact ih k k2 v hne

theorem recSet_lookup_isSome {α : Type} (l : List (String × α)) (k k2 : String) (v : α)
    (h : (recLookup l k).isSome = true) : (recLookup (recSet l k2 v) k).isSome = true := by
  by_cases hk : k = k2
  · subst hk
    rw [recSet_lookup_self]
    rfl
  · rw [recSet_lookup_other l k k2 v hk]
    exact h

theorem rdFold_lookup_isSome (ps : List RDParams) :
    ∀ (acc : List (String × List String)) (k : String),
      (recLookup acc k).isSome = true →
      (recLookup (ps.foldl reportDependenciesExec acc) k).isSome = true := by
  induction ps with
  | nil => intro acc k h; exact h
  | cons p rest ih =>
    intro acc k h
    rw [List.foldl_cons]
    exact ih _ k (recSet_lookup_isSome _ k p.chunkId p.dependencies h)

theorem processStep_lookup_isSome (behavior : Nat → ChunkRun) :
    ∀ (chunks : List DiffChunk) (i : Nat) (acc : List (String × List String)) (k : String),
      (recLookup acc k).isSome = true →
      (recLookup (processStep behavior chunks i acc) k).isSome = true := by
  intro chunks
  induction chunks with
  | nil => intro i acc k h; exact h
  | cons c rest ih =>
    intro i acc k h
    simp only [processStep]
    apply ih
    have h2 := rdFold_lookup_isSome (behavior i).invocations acc k h
    by_cases ht : (behavior i).throws
    · rw [if_pos ht]
      exact recSet_lookup_isSome _ k c.id [] h2
    · rw [if_neg ht]
      exact h2

theorem processStep_entry_of_throws (behavior : Nat → ChunkRun) :
    ∀ (chunks : List DiffChunk) (i0 : Nat) (acc : List (String × List String))
      (j : Nat) (hj : j < chunks.length),
      (behavior (i0 + j)).throws = true →
      (recLookup (processStep behavior chunks i0 acc) ((chunks[j]).id)).isSome = true := by
  intro chunks
  induction chunks with
  | nil => intro i0 acc j hj; simp at hj
  | cons c rest ih =>
    intro i0 acc j hj hthrows
    cases j with
    | zero =>
      simp only [processStep]
      apply processStep_lookup_isSome
      rw [if_pos (by simpa using hthrows)]
      rw [show ((c :: rest)[0]).id = c.id from rfl, recSet_lookup_self]
      rfl
    | succ j2 =>
      simp only [processStep]
      have harith : i0 + (j2 + 1) = (i0 + 1) + j2 := by omega
      rw [harith] at hthrows
      have := ih (i0 + 1)
        (if (behavior i0).throws then
          recSet ((behavior i0).invocations.foldl reportDependenciesExec acc) c.id []
        else (behavior i0).invocations.foldl reportDependenciesExec acc)
        j2 (by simpa using hj) hthrows
      simpa using this

/-- Claim C7 (amended): a chunk whose `runWithTools` call throws is always
entered in the dependency record (the `catch` block writes `[]`, and later
writes can only replace, never remove, the entry).  A chunk whose run
completes without the engine invoking `report_dependencies` with its id gets
NO entry (see the counterexample). -/
theorem processDiffChunks_entry_on_error (chunks : List DiffChunk)
    (behavior : Nat → ChunkRun) :
    ∀ (j : Nat) (hj : j < chunks.length), (behavior j).throws = true →
      (recLookup (processDiffChunks chunks behavior).dependencies
        ((chunks[j]).id)).isSome = true := by
  intro j hj hthrows
  exact processStep_entry_of_throws behavior chunks 0 [] j hj (by simpa using hthrows)

/-- A chunk for the C7 and C8 scenarios. -/
def cW : DiffChunk := ⟨"a-1", "content", "a.ts", none⟩

/-- Counterexample to claim C7 as stated: a chunk whose run completes
normally but never invokes `report_dependencies` (a perfectly possible
engine behaviour — the tool call is only requested by prompt) ends with NO
entry in `dependencies`, so the graph does not have one entry per chunk. -/
theorem processDiffChunks_missing_entry :
    cW ∈ (processDiffChunks [cW] (fun _ => ⟨[], false⟩)).nodes ∧
    recLookup (processDiffChunks [cW] (fun _ => ⟨[], false⟩)).dependencies cW.id = none :=
  ⟨List.mem_singleton_self _, rfl⟩

/-- Witness for claim C7 (amended): with a throwing run, the single chunk
does get an entry. -/
theorem processDiffChunks_entry_on_error_witness :
    ((fun _ => (⟨[], true⟩ : ChunkRun)) 0).throws = true ∧
    (recLookup (processDiffChunks [cW] (fun _ => ⟨[], true⟩)).dependencies
      cW.id).isSome = true :=
  ⟨rfl, processDiffChunks_entry_on_error [cW] (fun _ => ⟨[], true⟩) 0 (by decide) rfl⟩

/-! ### Claim C8: the recording tool stores reports verbatim -/

/-- A one-node graph whose invariant ("dependency lists reference only node
ids; no self-dependency") holds trivially before any recording. -/
def gSelfW : DependencyGraph := ⟨[cW], []⟩

/-- Counterexample to claim C8 as stated: invoking the recording tool with a
self-referencing and an unknown id stores both — the recorded list contains
the chunk's own id and an id not in `nodes`, violating the invariant. -/
theorem reportDependencies_violates_invariant :
    recLookup (reportDependenciesExec gSelfW.dependencies ⟨["a-1", "zzz"], "a-1"⟩) "a-1" =
      some ["a-1", "zzz"] ∧
    "a-1" ∈ ["a-1", "zzz"] ∧ "zzz" ∉ nodeIds gSelfW :=
  ⟨rfl, by decide, by decide⟩

/-- Claim C8 (amended): `reportDependenciesTool`'s execute stores the
reported dependency list verbatim under the reported chunk id — unknown ids
and self-references included, with no defensive filtering — and leaves every
other entry unchanged.  (Robustness against bogus ids lives downstream, in
`topologicalSort`'s `|| []` and `nodeMap` guards, not in the recording
operation.) -/
theorem reportDependencies_stores_verbatim (deps : List (String × List String))
    (p : RDParams) :
    recLookup (reportDependenciesExec deps p) p.chunkId = some p.dependencies ∧
    ∀ k, k ≠ p.chunkId → recLookup (reportDependenciesExec deps p) k = recLookup deps k := by
  refine ⟨recSet_lookup_self deps p.chunkId p.dependencies, ?_⟩
  intro k hk
  exact recSet_lookup_other deps k p.chunkId p.dependencies hk

/-- Witness for claim C8 (amended). -/
theorem reportDependencies_stores_verbatim_witness :
    recLookup (reportDependenciesExec [] ⟨["a-1", "zzz"], "a-1"⟩) "a-1" =
      some ["a-1", "zzz"] ∧
    ("b" ≠ "a-1") ∧
    recLookup (reportDependenciesExec [] ⟨["a-1", "zzz"], "a-1"⟩) "b" = recLookup [] "b" :=
  ⟨(reportDependencies_stores_verbatim [] ⟨["a-1", "zzz"], "a-1"⟩).1, by decide,
    (reportDependencies_stores_verbatim [] ⟨["a-1", "zzz"], "a-1"⟩).2 "b" (by decide)⟩

/-! ## Per-tag iterative reorderer (`src/index.ts`, `orderChunksForTag`)

`orderChunksForTag` loops `while (!ordering.done && recursionLimit-- > 0)`
(the limit starts at 5), making one `runWithTools` call per round with the
single scoped `reorder` tool.  The engine's behaviour per round is
abstracted as the list of `reorder` invocations it makes in that round. -/

inductive Priority
  | high
  | low
  | unknown
deriving DecidableEq, Repr

/-- The `Diff` interface (a chunk with tags and priority). -/
structure Diff where
  id : String
  content : String
  filename : String
  patch : Option String
  tags : List String
  priority : Priority
deriving DecidableEq, Repr

/-- Parameters of the `reorder` tool (`reorderSchema`). -/
structure ReorderParams where
  order : List String
  done : Bool
deriving DecidableEq, Repr

/-- The `Ordering` state of `orderChunksForTag`: the in-memory group order
and the convergence flag. -/
structure OrderingState where
  ordering : List Diff
  done : Bool
deriving DecidableEq, Repr

/-- `reorderTool(ordering).execute(params)` (lines 1372-1392): on
`done=true` it sets the flag; otherwise it resolves the proposed id
sequence against the current group (silently dropping unresolvable ids) and
RETURNS the resolved list as the tool result — it never assigns it to
`ordering.ordering` (the resolved list only flows back to the engine as the
tool-result content). -/
def reorderExec (st : OrderingState) (p : ReorderParams) :
    OrderingState × Option (List Diff) :=
  if p.done then ({ st with done := true }, none)
  else (st, some (p.order.filterMap (fun i => st.ordering.find? (fun c => c.id == i))))

/-- One `runWithTools` round: the engine's `reorder` invocations are applied
to the state in order. -/
def runReorderRound (st : OrderingState) (invocations : List ReorderParams) : OrderingState :=
  invocations.foldl (fun s p => (reorderExec s p).1) st

/-- The `while (!ordering.done && recursionLimit-- > 0)` loop; `r` is the
remaining budget (initially 5) and `calls` counts the engine calls made
(`behavior calls` gives the invocations of the next round). -/
def orderLoop (behavior : Nat → List ReorderParams) :
    Nat → Nat → OrderingState → OrderingState × Nat
  | 0, calls, st => (st, calls)
  | r + 1, calls, st =>
    if st.done then (st, calls)
    else orderLoop behavior r (calls + 1) (runReorderRound st (behavior calls))

/-- `orderChunksForTag` (lines 1071-1142), with the engine abstracted:
returns the final group order and the number of engine calls made. -/
def orderChunksForTag (behavior : Nat → List ReorderParams) (chunks : List Diff) :
    List Diff × Nat :=
  let res := orderLoop behavior 5 0 ⟨chunks, false⟩
  (res.1.ordering, res.2)

/-- Two chunks for the C9 scenario. -/
def dW1 : Diff := ⟨"d1", "one", "a.ts", none, ["tag"], Priority.low⟩

def dW2 : Diff := ⟨"d2", "two", "b.ts", none, ["tag"], Priority.low⟩

/-- Claim C9's divergence, evaluated: with an engine that proposes the
reversed order `[d2, d1]` (done=false) every round, `orderChunksForTag`
exhausts its 5-round budget and still returns the ORIGINAL order
`[d1, d2]` — the resolved reordering computed by the `reorder` tool is
discarded instead of replacing the in-memory group order, contrary to the
claim (and to the specification's description of the reorderer).  With an
engine that immediately reports `done=true`, the group order is returned
unchanged after exactly one engine call — that part of the claim holds. -/
theorem orderChunksForTag_discards_reordering :
    orderChunksForTag (fun _ => [⟨["d2", "d1"], false⟩]) [dW1, dW2] = ([dW1, dW2], 5) ∧
    orderChunksForTag (fun _ => [⟨[], true⟩]) [dW1, dW2] = ([dW1, dW2], 1) :=
  ⟨rfl, rfl⟩

end Reviewr
